import Mathlib

/-!
Verification of the instant-runoff voting tabulator `irv.py`.

The Python source is shallowly embedded: Python 2 value comparison
(`sorted` on tuples/lists, with `None` below every integer) is modelled by
explicit three-way comparators, `zip(*xs)` by a truncating transpose
`pyZip`, and operations that can raise (`IndexError` on `counts[-2]`,
the tuple-unpacking `ValueError` in `update_counts`, `KeyError` in the
tally loop, `ValueError` from `int()`) return `Option`/`none` at the
corresponding points.
-/

/-- Python 2 three-way comparison on integers. -/
def cmpInt (a b : Int) : Ordering :=
  if a < b then .lt else if b < a then .gt else .eq

/-- Python 2 three-way comparison on naturals (vote counts). -/
def cmpNat (a b : Nat) : Ordering :=
  if a < b then .lt else if b < a then .gt else .eq

/-- Python 2 comparison of characters (by code point, as `ord` compares). -/
def cmpChar (a b : Char) : Ordering := cmpNat a.toNat b.toNat

/-- Python 2 comparison where `None` sorts below every integer. -/
def cmpOI : Option Int → Option Int → Ordering
  | none, none => .eq
  | none, some _ => .lt
  | some _, none => .gt
  | some a, some b => cmpInt a b

/-- Python 2 lexicographic comparison of sequences (shorter prefix first). -/
def cmpList (c : α → α → Ordering) : List α → List α → Ordering
  | [], [] => .eq
  | [], _ :: _ => .lt
  | _ :: _, [] => .gt
  | a :: as, b :: bs => (c a b).then (cmpList c as bs)

/-- Python 2 byte-string comparison, modelled on the character list. -/
def cmpString (a b : String) : Ordering := cmpList cmpChar a.data b.data

/-- A comparator behaving like a linear order: `.eq` exactly on equal
arguments, swapped by argument exchange, and transitive on `.lt`. -/
structure LawfulCmp (c : α → α → Ordering) : Prop where
  eq_iff : ∀ a b, c a b = .eq ↔ a = b
  symm : ∀ a b, c a b = (c b a).swap
  lt_trans : ∀ a b d, c a b = .lt → c b d = .lt → c a d = .lt

theorem cmpInt_lt (a b : Int) : cmpInt a b = .lt ↔ a < b := by
  unfold cmpInt; split_ifs <;> simp_all
theorem cmpInt_eq (a b : Int) : cmpInt a b = .eq ↔ a = b := by
  unfold cmpInt; split_ifs <;> simp_all <;> omega
theorem cmpInt_gt (a b : Int) : cmpInt a b = .gt ↔ b < a := by
  unfold cmpInt; split_ifs <;> simp_all; omega

theorem cmpNat_lt (a b : Nat) : cmpNat a b = .lt ↔ a < b := by
  unfold cmpNat; split_ifs <;> simp_all
theorem cmpNat_eq (a b : Nat) : cmpNat a b = .eq ↔ a = b := by
  unfold cmpNat; split_ifs <;> simp_all <;> omega
theorem cmpNat_gt (a b : Nat) : cmpNat a b = .gt ↔ b < a := by
  unfold cmpNat; split_ifs <;> simp_all; omega

theorem lawful_cmpInt : LawfulCmp cmpInt := by
  refine ⟨cmpInt_eq, ?_, ?_⟩
  · intro a b
    rcases lt_trichotomy a b with h | h | h
    · rw [(cmpInt_lt a b).mpr h, (cmpInt_gt b a).mpr h]; rfl
    · rw [(cmpInt_eq a b).mpr h, (cmpInt_eq b a).mpr h.symm]; rfl
    · rw [(cmpInt_gt a b).mpr h, (cmpInt_lt b a).mpr h]; rfl
  · intro a b d h1 h2
    rw [cmpInt_lt] at h1 h2 ⊢
    omega

theorem lawful_cmpNat : LawfulCmp cmpNat := by
  refine ⟨cmpNat_eq, ?_, ?_⟩
  · intro a b
    rcases lt_trichotomy a b with h | h | h
    · rw [(cmpNat_lt a b).mpr h, (cmpNat_gt b a).mpr h]; rfl
    · rw [(cmpNat_eq a b).mpr h, (cmpNat_eq b a).mpr h.symm]; rfl
    · rw [(cmpNat_gt a b).mpr h, (cmpNat_lt b a).mpr h]; rfl
  · intro a b d h1 h2
    rw [cmpNat_lt] at h1 h2 ⊢
    omega

theorem char_toNat_injective (a b : Char) (h : a.toNat = b.toNat) : a = b :=
  Char.eq_of_val_eq (UInt32.eq_of_toBitVec_eq (BitVec.eq_of_toNat_eq h))

theorem lawful_cmpChar : LawfulCmp cmpChar := by
  obtain ⟨heq, hsym, htr⟩ := lawful_cmpNat
  refine ⟨?_, fun a b => hsym _ _, fun a b d => htr _ _ _⟩
  intro a b
  rw [cmpChar, heq]
  exact ⟨char_toNat_injective a b, fun h => by rw [h]⟩

theorem lawful_cmpOI : LawfulCmp cmpOI := by
  obtain ⟨heq, hsym, htr⟩ := lawful_cmpInt
  refine ⟨?_, ?_, ?_⟩
  · rintro (_ | a) (_ | b) <;> simp [cmpOI, heq]
  · rintro (_ | a) (_ | b) <;> simp only [cmpOI, Ordering.swap] <;>
      first | rfl | exact hsym a b
  · rintro (_ | a) (_ | b) (_ | d) h1 h2 <;>
      simp only [cmpOI] at h1 h2 ⊢ <;>
      first | rfl | exact htr _ _ _ h1 h2 | exact absurd h1 (by decide) | exact absurd h2 (by decide) | exact h1 | exact h2

theorem lawful_cmpList {c : α → α → Ordering} (hc : LawfulCmp c) :
    LawfulCmp (cmpList c) := by
  refine ⟨?_, ?_, ?_⟩
  · intro a
    induction a with
    | nil => rintro (_ | ⟨b, bs⟩) <;> simp [cmpList]
    | cons x xs ih =>
      rintro (_ | ⟨y, ys⟩)
      · simp [cmpList]
      · show (c x y).then (cmpList c xs ys) = .eq ↔ _
        rw [Ordering.then_eq_eq, hc.eq_iff, ih ys, List.cons.injEq]
  · intro a
    induction a with
    | nil => rintro (_ | ⟨b, bs⟩) <;> rfl
    | cons x xs ih =>
      rintro (_ | ⟨y, ys⟩)
      · rfl
      · show (c x y).then (cmpList c xs ys) = ((c y x).then (cmpList c ys xs)).swap
        rw [Ordering.swap_then, ← hc.symm, ← ih ys]
  · intro a
    induction a with
    | nil =>
      rintro (_ | ⟨y, ys⟩) (_ | ⟨z, zs⟩) h1 h2 <;>
        first | rfl | exact h1 | exact h2 | cases h2
    | cons x xs ih =>
      rintro (_ | ⟨y, ys⟩) (_ | ⟨z, zs⟩) h1 h2
      · cases h1
      · cases h1
      · cases h2
      · show (c x z).then (cmpList c xs zs) = .lt
        have h1' : (c x y).then (cmpList c xs ys) = .lt := h1
        have h2' : (c y z).then (cmpList c ys zs) = .lt := h2
        rw [Ordering.then_eq_lt] at h1' h2' ⊢
        rcases h1' with h1' | ⟨h1e, h1t⟩
        · rcases h2' with h2' | ⟨h2e, h2t⟩
          · exact Or.inl (hc.lt_trans _ _ _ h1' h2')
          · obtain rfl := (hc.eq_iff y z).mp h2e
            exact Or.inl h1'
        · obtain rfl := (hc.eq_iff x y).mp h1e
          rcases h2' with h2' | ⟨h2e, h2t⟩
          · exact Or.inl h2'
          · exact Or.inr ⟨h2e, ih ys zs h1t h2t⟩

theorem lawful_cmpString : LawfulCmp cmpString := by
  obtain ⟨heq, hsym, htr⟩ := lawful_cmpList lawful_cmpChar
  refine ⟨?_, fun a b => hsym _ _, fun a b d => htr _ _ _⟩
  intro a b
  rw [cmpString, heq]
  constructor
  · intro h
    cases a; cases b
    exact congrArg String.mk h
  · intro h; rw [h]

/-- Lexicographic combination of comparators on a product (Python tuple
comparison: first components first). -/
def cmpLex (c₁ : α → α → Ordering) (c₂ : β → β → Ordering)
    (x y : α × β) : Ordering :=
  (c₁ x.1 y.1).then (c₂ x.2 y.2)

theorem lawful_cmpLex {c₁ : α → α → Ordering} {c₂ : β → β → Ordering}
    (h₁ : LawfulCmp c₁) (h₂ : LawfulCmp c₂) : LawfulCmp (cmpLex c₁ c₂) := by
  refine ⟨?_, ?_, ?_⟩
  · rintro ⟨a, x⟩ ⟨b, y⟩
    rw [cmpLex, Ordering.then_eq_eq, h₁.eq_iff, h₂.eq_iff, Prod.mk.injEq]
  · rintro ⟨a, x⟩ ⟨b, y⟩
    rw [cmpLex, cmpLex, Ordering.swap_then, ← h₁.symm, ← h₂.symm]
  · rintro ⟨a, x⟩ ⟨b, y⟩ ⟨d, z⟩ h1 h2
    rw [cmpLex, Ordering.then_eq_lt] at h1 h2 ⊢
    rcases h1 with h1 | ⟨h1e, h1t⟩
    · rcases h2 with h2 | ⟨h2e, h2t⟩
      · exact Or.inl (h₁.lt_trans _ _ _ h1 h2)
      · obtain rfl := (h₁.eq_iff b d).mp h2e
        exact Or.inl h1
    · obtain rfl := (h₁.eq_iff a b).mp h1e
      rcases h2 with h2 | ⟨h2e, h2t⟩
      · exact Or.inl h2
      · exact Or.inr ⟨h2e, h₂.lt_trans _ _ _ h1t h2t⟩

/-- The non-strict order `a ≤ b` induced by a comparator, as Python's
`sorted` uses it. -/
def cmpLe (c : α → α → Ordering) (a b : α) : Prop := c a b ≠ .gt

instance (c : α → α → Ordering) : DecidableRel (cmpLe c) := fun _ _ => by
  unfold cmpLe; infer_instance

theorem cmpLe_total {c : α → α → Ordering} (hc : LawfulCmp c) (a b : α) :
    cmpLe c a b ∨ cmpLe c b a := by
  unfold cmpLe
  rw [hc.symm a b]
  rcases c b a with _ | _ | _ <;> simp [Ordering.swap]

theorem cmpLe_trans {c : α → α → Ordering} (hc : LawfulCmp c) (a b d : α) :
    cmpLe c a b → cmpLe c b d → cmpLe c a d := by
  unfold cmpLe
  intro h1 h2
  rcases h : c a b with _ | _ | _
  · rcases h' : c b d with _ | _ | _
    · simp [hc.lt_trans a b d h h']
    · obtain rfl := (hc.eq_iff b d).mp h'
      simp [h]
    · exact absurd h' h2
  · obtain rfl := (hc.eq_iff a b).mp h
    exact h2
  · exact absurd h h1

theorem cmpLe_antisymm {c : α → α → Ordering} (hc : LawfulCmp c) (a b : α) :
    cmpLe c a b → cmpLe c b a → a = b := by
  unfold cmpLe
  intro h1 h2
  rcases h : c a b with _ | _ | _
  · rw [hc.symm b a, h] at h2
    exact absurd rfl h2
  · exact (hc.eq_iff a b).mp h
  · exact absurd h h1

theorem cmpLe_of_lt {c : α → α → Ordering} (a b : α) (h : c a b = .lt) :
    cmpLe c a b := by
  unfold cmpLe; rw [h]; simp

theorem cmpLe_not_gt {c : α → α → Ordering} (hc : LawfulCmp c) (a b : α)
    (h : cmpLe c a b) : c a b = .lt ∨ a = b := by
  rcases h' : c a b with _ | _ | _
  · exact Or.inl rfl
  · exact Or.inr ((hc.eq_iff a b).mp h')
  · exact absurd h' h

/-! ### Python sequence primitives -/

/-- Length of the shortest row: Python `zip(*rows)` truncates to it. -/
def minLen (ls : List (List (Option Int))) : Nat :=
  match ls with
  | [] => 0
  | r :: rs => rs.foldl (fun m row => min m row.length) r.length

/-- Python `zip(*ls)` on the ballot table: transpose truncated to the
shortest row (`votes_by_candidate` and the rebuild in `update_counts`). -/
def pyZip (ls : List (List (Option Int))) : List (List (Option Int)) :=
  (List.range (minLen ls)).map (fun j => ls.map (fun row => row.getD j none))

/-- Python indexing `l[i]` including negative indices; `none` models
`IndexError`. -/
def pyIdx (l : List α) (i : Int) : Option α :=
  if 0 ≤ i then l[i.toNat]?
  else if i.natAbs ≤ l.length then l[l.length - i.natAbs]? else none

/-- First index of `w` in `l` (Python `list.index`; `none` models its
`ValueError`). -/
def pyIndex : List String → String → Option Nat
  | [], _ => none
  | a :: rest, w => if a = w then some 0 else (pyIndex rest w).map (· + 1)

/-! ### Ballot normalization (`get_rank_order`) -/

/-- Comparator on the `(value, position)` pairs sorted by `get_rank_order`
(Python tuple comparison with `None` smallest). -/
def cmpVI : Option Int × Nat → Option Int × Nat → Ordering :=
  cmpLex cmpOI cmpNat

/-- The order `sorted` uses on `(value, position)` pairs. -/
def leVI : Option Int × Nat → Option Int × Nat → Prop := cmpLe cmpVI

instance : DecidableRel leVI := fun a b => by unfold leVI; infer_instance

/-- The write-back loop of `get_rank_order`: `out[index] = rank + 1` for
`(rank, index)` in `enumerate(indices)`, ranks counted from `r`. -/
def scatterRanks : List (Option Int) → Int → List Nat → List (Option Int)
  | out, _, [] => out
  | out, r, i :: rest => scatterRanks (out.set i (some r)) (r + 1) rest

/-- `get_rank_order` from irv.py: `[5,1,4] ↦ [3,1,2]`, i.e. dense ranks
`1..k` assigned in increasing order of the raw values (ties by position),
`None` kept in place. -/
def get_rank_order (l : List (Option Int)) : List (Option Int) :=
  let pairs := l.enum.map (fun p => (p.2, p.1))
  let sortedPairs := List.insertionSort leVI pairs
  let indices := (sortedPairs.filter (fun p => p.1.isSome)).map (fun p => p.2)
  scatterRanks (List.replicate l.length none) 1 indices

/-! ### Tally (`update_counts`) -/

/-- One candidate's CountVector: position `r` (0-based) counts the ballots
giving this candidate normalized rank `r+1` (`update_counts` inner loop,
`counter` over keys `1..n`). -/
def countVec (n : Nat) (col : List (Option Int)) : List Nat :=
  (List.range n).map
    (fun (r : Nat) => col.countP (fun v => v == some ((r : Int) + 1)))

/-- The triples `(counts, votes_by_candidate, names)` zipped and sorted by
`update_counts`. -/
abbrev Triple := List Nat × List (Option Int) × String

/-- Python comparison of those triples. -/
def cmpTriple : Triple → Triple → Ordering :=
  cmpLex (cmpList cmpNat) (cmpLex (cmpList cmpOI) cmpString)

/-- The order `sorted` uses on the triples. -/
def leTriple : Triple → Triple → Prop := cmpLe cmpTriple

instance : DecidableRel leTriple := fun a b => by unfold leTriple; infer_instance

/-! ### VoteTable -/

/-- A table of votes: ballots (`votes`, by voter), candidate `names`, the
per-candidate `counts`, and the cached lengths set by `maintain`. -/
structure VoteTable where
  votes : List (List (Option Int))
  names : List String
  counts : List (List Nat)
  N_votes : Nat
  N_candidates : Nat
deriving DecidableEq

/-- `reduce_ranks`: renormalize every ballot to dense ranks. -/
def reduce_ranks (votes : List (List (Option Int))) :
    List (List (Option Int)) :=
  votes.map get_rank_order

/-- The implicit domain check of `update_counts`: `counter[vote] += 1`
raises `KeyError` when a vote falls outside the keys `1..n`. -/
def rankOutOfRange (n : Nat) (pairs : List (String × List (Option Int))) :
    Bool :=
  pairs.any (fun p => p.2.any (fun v => match v with
    | some r => decide (r < 1 ∨ (n : Int) < r)
    | none => false))

/-- `sorted(zip(counts, votes_by_candidate, names))` of `update_counts`. -/
def sortedTriples (votes : List (List (Option Int))) (names : List String) :
    List Triple :=
  let cols := pyZip (reduce_ranks votes)
  let counts := (List.zip names cols).map
    (fun p => countVec names.length p.2)
  List.insertionSort leTriple (List.zip counts (List.zip cols names))

/-- The `VoteTable` constructor (`__init__`, i.e. `maintain` =
`reduce_ranks` + `update_counts`). `none` models the two ways the Python
constructor raises: a `KeyError` when a normalized rank falls outside
`counter`'s keys `1..N`, and the `ValueError` from unpacking
`zip(*sorted(...))` when the zipped triple list is empty. -/
def VoteTable.make (votes : List (List (Option Int))) (names : List String) :
    Option VoteTable :=
  if rankOutOfRange names.length
      (List.zip names (pyZip (reduce_ranks votes))) then
    none
  else if sortedTriples votes names = [] then
    none
  else
    some { votes := pyZip ((sortedTriples votes names).map (fun x => x.2.1)),
           names := (sortedTriples votes names).map (fun x => x.2.2),
           counts := (sortedTriples votes names).map (fun x => x.1),
           N_votes := votes.length,
           N_candidates := names.length }

/-- `VoteTable.copy`: rebuild from the stored votes and names. -/
def VoteTable.copy (t : VoteTable) : Option VoteTable :=
  VoteTable.make t.votes t.names

/-- `votes_by_candidate`: transpose of the ballot-major table. -/
def VoteTable.votes_by_candidate (t : VoteTable) : List (List (Option Int)) :=
  pyZip t.votes

/-- `compute_winner`: the strongest candidate (`counts[-1]`, `names[-1]`)
wins iff its first-place count exceeds `N_votes/2` (floor division).
Outer `none` models `IndexError` on an empty table. -/
def VoteTable.compute_winner (t : VoteTable) : Option (Option String) :=
  (pyIdx t.counts (-1)).bind (fun strongest =>
    (strongest[0]?).bind (fun first =>
      if t.N_votes / 2 < first then
        (pyIdx t.names (-1)).bind (fun nm => some (some nm))
      else
        some none))

/-- `check_tied`: the two strongest count vectors are equal and not all
zero. `none` models the `IndexError` of `counts[-2]` on a one-candidate
table. -/
def VoteTable.check_tied (t : VoteTable) : Option Bool :=
  (pyIdx t.counts (-1)).bind (fun a =>
    (pyIdx t.counts (-2)).bind (fun b =>
      some (decide (a = b) && decide (0 < a.sum))))

/-- `with_candidate_eliminated`: drop one candidate column (Python slices,
which clamp silently out of range) and rebuild. -/
def VoteTable.with_candidate_eliminated (t : VoteTable) (index : Nat) :
    Option VoteTable :=
  let votes := t.votes_by_candidate
  let new_votes := votes.take index ++ votes.drop (index + 1)
  let new_names := t.names.take index ++ t.names.drop (index + 1)
  VoteTable.make (pyZip new_votes) new_names

/-! ### Loading (`int_or_none`, `read_votes`) -/

/-- One decimal digit of a token (`int` accepts only digits here). -/
def digitVal (c : Char) : Option Nat :=
  if 48 ≤ c.toNat ∧ c.toNat ≤ 57 then some (c.toNat - 48) else none

/-- The digit run of Python `int`, accumulating left to right. -/
def parseNatDigits : List Char → Nat → Option Nat
  | [], acc => some acc
  | c :: cs, acc =>
    match digitVal c with
    | none => none
    | some d => parseNatDigits cs (acc * 10 + d)

/-- Python `int(string)` on a whitespace-free token: an optional `-` or
`+` sign followed by one or more digits (`int('+3') == 3` in Python 2);
`none` models the `ValueError` it raises on anything else. -/
def pyInt (s : String) : Option Int :=
  match s.data with
  | [] => none
  | c :: cs =>
    if c = '-' then
      match cs with
      | [] => none
      | _ :: _ => (parseNatDigits cs 0).map (fun m => -(m : Int))
    else if c = '+' then
      match cs with
      | [] => none
      | _ :: _ => (parseNatDigits cs 0).map (fun m => (m : Int))
    else
      (parseNatDigits (c :: cs) 0).map (fun m => (m : Int))

/-- `int_or_none`: `int(string) or None`; `none` models the `ValueError`
`int` raises on a non-numeric token, `some none` is an abstention. -/
def int_or_none (s : String) : Option (Option Int) :=
  match pyInt s with
  | none => none
  | some k => if k = 0 then some none else some (some k)

/-- `read_votes` after the file I/O: given the header names and each
line's whitespace-split tokens, parse and build the table. Outer `none`:
a `ValueError` from `int`; inner `none`: the constructor raised. -/
def read_votes (names : List String) (lines : List (List String)) :
    Option (Option VoteTable) :=
  (lines.mapM (fun (line : List String) => line.mapM int_or_none)).map
    (fun votes => VoteTable.make votes names)

/-! ### The driver (`instant_runoff`), automated mode -/

/-- The automated choice of `loser_index`: the weakest candidate (index 0)
unless `check_tied`, in which case the external selector decides. -/
def auto_loser (sel : VoteTable → Nat) (t : VoteTable) : Option Nat :=
  match t.check_tied with
  | none => none
  | some true => some (sel t)
  | some false => some 0

/-- The inner `while True` loop of `instant_runoff` in automated mode:
repeatedly eliminate until `compute_winner` answers, or a single
(ineligible, flag `true`) candidate remains. `fuel` bounds the loop;
`none` models a crash or nontermination. -/
def round_loop (sel : VoteTable → Nat) : Nat → VoteTable → Option (String × Bool)
  | 0, _ => none
  | fuel + 1, t =>
    match t.compute_winner with
    | none => none
    | some (some w) => some (w, false)
    | some none =>
      if t.N_candidates = 1 then
        match t.names with
        | [soul] => some (soul, true)
        | _ => none
      else
        match auto_loser sel t with
        | none => none
        | some i =>
          match t.with_candidate_eliminated i with
          | none => none
          | some t2 => round_loop sel fuel t2

/-- One iteration of the `for rank in xrange(N)` loop: snapshot
(`full_table = table.copy()`), resolve the round on the working table,
then eliminate the identified candidate from the snapshot
(`full_table.with_candidate_eliminated(full_table.names.index(winner))`). -/
def next_round_table (sel : VoteTable → Nat) (fuel : Nat) (t : VoteTable) :
    Option (String × Bool × VoteTable) :=
  t.copy.bind (fun full =>
    (round_loop sel fuel t).bind (fun wi =>
      (pyIndex full.names wi.1).bind (fun i =>
        (full.with_candidate_eliminated i).bind (fun t2 =>
          some (wi.1, wi.2, t2)))))

/-! ### Order-theoretic facts about the comparators -/

theorem lawful_cmpVI : LawfulCmp cmpVI :=
  lawful_cmpLex lawful_cmpOI lawful_cmpNat

theorem lawful_cmpTriple : LawfulCmp cmpTriple :=
  lawful_cmpLex (lawful_cmpList lawful_cmpNat)
    (lawful_cmpLex (lawful_cmpList lawful_cmpOI) lawful_cmpString)

instance : IsTotal (Option Int × Nat) leVI :=
  ⟨fun a b => cmpLe_total lawful_cmpVI a b⟩

instance : IsTrans (Option Int × Nat) leVI :=
  ⟨fun a b d => cmpLe_trans lawful_cmpVI a b d⟩

instance : IsTotal Triple leTriple :=
  ⟨fun a b => cmpLe_total lawful_cmpTriple a b⟩

instance : IsTrans Triple leTriple :=
  ⟨fun a b d => cmpLe_trans lawful_cmpTriple a b d⟩

/-- A lexicographic `≤` bounds the first components. -/
theorem cmpLe_lex_fst {c₁ : α → α → Ordering} {c₂ : β → β → Ordering}
    (x y : α × β) (h : cmpLe (cmpLex c₁ c₂) x y) : cmpLe c₁ x.1 y.1 := by
  unfold cmpLe at h ⊢
  intro hgt
  exact h (by rw [cmpLex, hgt]; rfl)

/-! ### Facts about `pyZip` -/

theorem minLen_eq_of_rect (ls : List (List (Option Int))) (m : Nat)
    (hne : ls ≠ []) (h : ∀ r ∈ ls, r.length = m) : minLen ls = m := by
  have aux : ∀ (rs : List (List (Option Int))) (acc : Nat),
      (∀ x ∈ rs, x.length = m) → acc = m →
      rs.foldl (fun acc row => min acc row.length) acc = m := by
    intro rs
    induction rs with
    | nil => intro acc _ hacc; simpa using hacc
    | cons x xs ih =>
      intro acc hx hacc
      simp only [List.foldl_cons]
      refine ih _ (fun y hy => hx y (List.mem_cons_of_mem _ hy)) ?_
      rw [hacc, hx x (List.mem_cons_self _ _)]
      omega
  match ls, hne with
  | r :: rs, _ =>
    show rs.foldl (fun acc row => min acc row.length) r.length = m
    exact aux rs r.length (fun y hy => h y (List.mem_cons_of_mem _ hy))
      (h r (List.mem_cons_self _ _))

theorem pyZip_length (ls : List (List (Option Int))) :
    (pyZip ls).length = minLen ls := by
  simp [pyZip]

theorem pyZip_getElem (ls : List (List (Option Int))) (j : Nat)
    (hj : j < (pyZip ls).length) :
    (pyZip ls)[j] = ls.map (fun row => row.getD j none) := by
  simp only [pyZip, List.length_map, List.length_range] at hj ⊢
  rw [List.getElem_map, List.getElem_range]

theorem mem_pyZip (ls : List (List (Option Int))) (row : List (Option Int))
    (h : row ∈ pyZip ls) :
    ∃ j < minLen ls, row = ls.map (fun r => r.getD j none) := by
  simp only [pyZip, List.mem_map, List.mem_range] at h
  obtain ⟨j, hj, hrow⟩ := h
  exact ⟨j, hj, hrow.symm⟩

theorem pyZip_row_length (ls : List (List (Option Int)))
    (row : List (Option Int)) (h : row ∈ pyZip ls) : row.length = ls.length := by
  obtain ⟨j, _, hrow⟩ := mem_pyZip ls row h
  rw [hrow, List.length_map]

theorem pyZip_entry (ls : List (List (Option Int))) (row : List (Option Int))
    (x : Option Int) (r : Int) (h : row ∈ pyZip ls) (hx : x ∈ row)
    (hr : x = some r) : ∃ orig ∈ ls, some r ∈ orig := by
  obtain ⟨j, _, hrow⟩ := mem_pyZip ls row h
  subst hrow
  obtain ⟨orig, horig, hval⟩ := List.mem_map.mp hx
  refine ⟨orig, horig, ?_⟩
  rw [hr] at hval
  rw [List.getD_eq_getElem?_getD] at hval
  match hg : orig[j]? with
  | none => rw [hg] at hval; simp at hval
  | some y =>
    rw [hg] at hval
    simp at hval
    subst hval
    obtain ⟨hlt, he⟩ := List.getElem?_eq_some.mp hg
    rw [← he]
    exact List.getElem_mem hlt

theorem pyZip_ne_nil (ls : List (List (Option Int))) (h : 0 < minLen ls) :
    pyZip ls ≠ [] := by
  intro hh
  have := pyZip_length ls
  rw [hh] at this
  simp at this
  omega

theorem pyZip_pyZip (ls : List (List (Option Int))) (m : Nat) (hne : ls ≠ [])
    (hm : 0 < m) (h : ∀ r ∈ ls, r.length = m) : pyZip (pyZip ls) = ls := by
  have hminl : minLen ls = m := minLen_eq_of_rect ls m hne h
  have hlen : (pyZip ls).length = m := by rw [pyZip_length, hminl]
  have hne2 : pyZip ls ≠ [] := pyZip_ne_nil ls (by omega)
  have hmin2 : minLen (pyZip ls) = ls.length :=
    minLen_eq_of_rect _ _ hne2 (pyZip_row_length ls)
  apply List.ext_getElem
  · rw [pyZip_length, hmin2]
  · intro i h1 h2
    rw [pyZip_getElem _ _ h1]
    have hmem : ls[i] ∈ ls := List.getElem_mem h2
    apply List.ext_getElem
    · rw [List.length_map, hlen, h _ hmem]
    · intro j hj1 hj2
      rw [List.length_map, hlen] at hj1
      have hj1' : j < (pyZip ls).length := by rw [hlen]; exact hj1
      rw [List.getElem_map, pyZip_getElem _ _ hj1',
        List.getD_eq_getElem _ _ (by rw [List.length_map]; exact h2),
        List.getElem_map, List.getD_eq_getElem _ _ hj2]

/-! ### Facts about `scatterRanks` -/

theorem scatterRanks_length (idxs : List Nat) :
    ∀ (out : List (Option Int)) (r : Int),
    (scatterRanks out r idxs).length = out.length := by
  induction idxs with
  | nil => intro out r; rfl
  | cons i rest ih =>
    intro out r
    rw [scatterRanks, ih, List.length_set]

theorem scatterRanks_getElem?_not_mem (idxs : List Nat) :
    ∀ (out : List (Option Int)) (r : Int) (p : Nat), p ∉ idxs →
    (scatterRanks out r idxs)[p]? = out[p]? := by
  induction idxs with
  | nil => intro out r p _; rfl
  | cons i rest ih =>
    intro out r p hp
    rw [scatterRanks, ih _ _ _ (fun hm => hp (List.mem_cons_of_mem _ hm)),
      List.getElem?_set_ne
        (by intro he; exact hp (by rw [← he]; exact List.mem_cons_self _ _))]

theorem scatterRanks_getElem?_mem (idxs : List Nat) :
    ∀ (out : List (Option Int)) (r : Int) (k : Nat) (hk : k < idxs.length),
    idxs.Nodup → idxs[k] < out.length →
    (scatterRanks out r idxs)[idxs[k]]? = some (some (r + k)) := by
  induction idxs with
  | nil => intro out r k hk; simp at hk
  | cons i rest ih =>
    intro out r k hk hnd hb
    rw [scatterRanks]
    match k with
    | 0 =>
      have hi : i ∉ rest := (List.nodup_cons.mp hnd).1
      simp only [List.getElem_cons_zero] at hb ⊢
      rw [scatterRanks_getElem?_not_mem rest _ _ _ hi,
        List.getElem?_set_self hb]
      norm_num
    | k' + 1 =>
      have hk' : k' < rest.length := by simpa using hk
      have hnd' : rest.Nodup := (List.nodup_cons.mp hnd).2
      have hb' : rest[k'] < (out.set i (some r)).length := by
        rw [List.length_set]
        simpa using hb
      have := ih (out.set i (some r)) (r + 1) k' hk' hnd' hb'
      rw [List.getElem_cons_succ] at hb ⊢
      rw [this]
      congr 2
      push_cast
      ring

theorem scatterRanks_getElem?_some (idxs : List Nat) :
    ∀ (out : List (Option Int)) (r : Int) (p : Nat) (v : Int),
    (scatterRanks out r idxs)[p]? = some (some v) →
    out[p]? = some (some v) ∨
      ∃ k : Nat, idxs[k]? = some p ∧ v = r + k := by
  induction idxs with
  | nil => intro out r p v h; exact Or.inl h
  | cons i rest ih =>
    intro out r p v h
    rw [scatterRanks] at h
    rcases ih _ _ _ _ h with h' | ⟨k, hik, hv⟩
    · by_cases hpi : i = p
      · subst hpi
        by_cases hlen : i < out.length
        · rw [List.getElem?_set_self hlen] at h'
          right
          refine ⟨0, by simp, ?_⟩
          simp at h'
          omega
        · rw [List.set_eq_of_length_le (by omega)] at h'
          exact Or.inl h'
      · rw [List.getElem?_set_ne hpi] at h'
        exact Or.inl h'
    · right
      refine ⟨k + 1, by simpa using hik, ?_⟩
      rw [hv]
      push_cast
      ring

/-! ### Facts about `get_rank_order` -/

/-- The `(value, position)` pairs built by `get_rank_order`. -/
def roPairs (l : List (Option Int)) : List (Option Int × Nat) :=
  l.enum.map (fun p => (p.2, p.1))

/-- Those pairs sorted (`sorted((v, i) for (i, v) in enumerate(list))`). -/
def roSorted (l : List (Option Int)) : List (Option Int × Nat) :=
  List.insertionSort leVI (roPairs l)

/-- The sorted pairs that carry a value. -/
def roSome (l : List (Option Int)) : List (Option Int × Nat) :=
  (roSorted l).filter (fun p => p.1.isSome)

/-- The `indices` list of `get_rank_order`. -/
def roIndices (l : List (Option Int)) : List Nat :=
  (roSome l).map (fun p => p.2)

theorem get_rank_order_def (l : List (Option Int)) :
    get_rank_order l =
      scatterRanks (List.replicate l.length none) 1 (roIndices l) := rfl

theorem mem_roPairs (l : List (Option Int)) (v : Option Int) (i : Nat) :
    (v, i) ∈ roPairs l ↔ l[i]? = some v := by
  unfold roPairs
  rw [List.mem_map]
  constructor
  · rintro ⟨⟨j, a⟩, hm, he⟩
    simp only [Prod.mk.injEq] at he
    obtain ⟨rfl, rfl⟩ := he
    have := List.mem_enum_iff_get?.mp hm
    rwa [List.get?_eq_getElem?] at this
  · intro h
    refine ⟨(i, v), ?_, rfl⟩
    rw [List.mem_enum_iff_get?, List.get?_eq_getElem?]
    exact h

theorem roSorted_perm (l : List (Option Int)) : (roSorted l).Perm (roPairs l) :=
  List.perm_insertionSort leVI (roPairs l)

theorem roSorted_pairwise (l : List (Option Int)) :
    (roSorted l).Pairwise leVI :=
  List.sorted_insertionSort leVI (roPairs l)

theorem roSome_pairwise (l : List (Option Int)) : (roSome l).Pairwise leVI :=
  List.Pairwise.sublist (List.filter_sublist _) (roSorted_pairwise l)

theorem roSome_mem_pairs (l : List (Option Int)) (x : Option Int × Nat)
    (h : x ∈ roSome l) : x ∈ roPairs l ∧ x.1.isSome :=
  ⟨(roSorted_perm l).mem_iff.mp (List.mem_filter.mp h).1,
   by simpa using (List.mem_filter.mp h).2⟩

theorem roIndices_nodup (l : List (Option Int)) : (roIndices l).Nodup := by
  have h1 : (roPairs l).map Prod.snd = List.range l.length := by
    unfold roPairs
    rw [List.map_map]
    exact List.enum_map_fst l
  have h2 : ((roSorted l).map Prod.snd).Perm (List.range l.length) := by
    rw [← h1]
    exact (roSorted_perm l).map Prod.snd
  have h3 : ((roSorted l).map Prod.snd).Nodup :=
    h2.nodup_iff.mpr (List.nodup_range _)
  have h4 : List.Sublist (roIndices l) ((roSorted l).map Prod.snd) :=
    List.Sublist.map _ (List.filter_sublist _)
  exact h3.sublist h4

theorem mem_roIndices (l : List (Option Int)) (i : Nat) :
    i ∈ roIndices l ↔ ∃ w : Int, l[i]? = some (some w) := by
  unfold roIndices
  rw [List.mem_map]
  constructor
  · rintro ⟨⟨v, j⟩, hm, he⟩
    simp only at he
    subst he
    obtain ⟨hp, hs⟩ := roSome_mem_pairs l _ hm
    obtain ⟨w, rfl⟩ := Option.isSome_iff_exists.mp hs
    exact ⟨w, (mem_roPairs l _ _).mp hp⟩
  · rintro ⟨w, hw⟩
    refine ⟨(some w, i), ?_, rfl⟩
    unfold roSome
    rw [List.mem_filter]
    exact ⟨(roSorted_perm l).mem_iff.mpr ((mem_roPairs l _ _).mpr hw), by simp⟩

theorem roIndices_length (l : List (Option Int)) :
    (roIndices l).length = l.countP (fun x => x.isSome) := by
  unfold roIndices roSome
  rw [List.length_map, ← List.countP_eq_length_filter]
  have h1 : (roSorted l).countP (fun p : Option Int × Nat => p.1.isSome) =
      (roPairs l).countP (fun p : Option Int × Nat => p.1.isSome) :=
    (roSorted_perm l).countP_eq _
  rw [h1]
  unfold roPairs
  rw [List.countP_map]
  have h2 : l.enum.countP ((fun p : Option Int × Nat => p.1.isSome) ∘
      (fun p : Nat × Option Int => (p.2, p.1))) =
      l.enum.countP (fun p : Nat × Option Int => p.2.isSome) := by
    apply List.countP_congr
    intro a _
    rfl
  rw [h2]
  have h3 : l.enum.countP (fun p : Nat × Option Int => p.2.isSome) =
      (l.enum.map Prod.snd).countP (fun x => x.isSome) := by
    rw [List.countP_map]
    rfl
  rw [h3, List.enum_map_snd]

theorem roIndices_lt (l : List (Option Int)) (i : Nat) (h : i ∈ roIndices l) :
    i < l.length := by
  obtain ⟨w, hw⟩ := (mem_roIndices l i).mp h
  exact (List.getElem?_eq_some.mp hw).1

theorem get_rank_order_length (l : List (Option Int)) :
    (get_rank_order l).length = l.length := by
  rw [get_rank_order_def, scatterRanks_length, List.length_replicate]

/-- Abstentions stay abstentions, in place. -/
theorem get_rank_order_none (l : List (Option Int)) (i : Nat)
    (h : l[i]? = some none) : (get_rank_order l)[i]? = some none := by
  rw [get_rank_order_def]
  have hni : i ∉ roIndices l := by
    intro hmem
    obtain ⟨w, hw⟩ := (mem_roIndices l i).mp hmem
    rw [h] at hw
    simp at hw
  rw [scatterRanks_getElem?_not_mem _ _ _ _ hni]
  have hlt : i < l.length := (List.getElem?_eq_some.mp h).1
  simp [List.getElem?_replicate, hlt]

/-- A ranked entry of the output: its rank is `1 + k` where `k` is its
position in `indices`. -/
theorem get_rank_order_some_inv (l : List (Option Int)) (i : Nat) (r : Int)
    (h : (get_rank_order l)[i]? = some (some r)) :
    ∃ k : Nat, (roIndices l)[k]? = some i ∧ r = 1 + k := by
  rw [get_rank_order_def] at h
  rcases scatterRanks_getElem?_some _ _ _ _ _ h with h' | h'
  · exfalso
    rcases Nat.lt_or_ge i l.length with hlt | hge
    · rw [List.getElem?_replicate, if_pos hlt] at h'
      simp at h'
    · rw [List.getElem?_eq_none (by simpa using hge)] at h'
      simp at h'
  · exact h'

/-- Ranked positions get ranks, and they lie in `1..k`. -/
theorem get_rank_order_some (l : List (Option Int)) (i : Nat) (a : Int)
    (h : l[i]? = some (some a)) :
    ∃ r : Int, (get_rank_order l)[i]? = some (some r) ∧ 1 ≤ r ∧
      r ≤ l.countP (fun x => x.isSome) := by
  have hmem : i ∈ roIndices l := (mem_roIndices l i).mpr ⟨a, h⟩
  obtain ⟨k, hk⟩ := List.mem_iff_getElem?.mp hmem
  have hklt : k < (roIndices l).length := (List.getElem?_eq_some.mp hk).1
  have hkv : (roIndices l)[k] = i := (List.getElem?_eq_some.mp hk).2
  have hb : (roIndices l)[k] < (List.replicate l.length (none : Option Int)).length := by
    rw [List.length_replicate, hkv]
    exact roIndices_lt l i hmem
  have := scatterRanks_getElem?_mem (roIndices l)
    (List.replicate l.length none) 1 k hklt (roIndices_nodup l) hb
  rw [hkv] at this
  rw [get_rank_order_def]
  refine ⟨1 + k, this, by omega, ?_⟩
  rw [← roIndices_length l]
  omega

theorem roIndices_pair (l : List (Option Int)) (k : Nat)
    (hk : k < (roSome l).length) :
    (roIndices l)[k]? = some ((roSome l)[k]).2 ∧
      l[((roSome l)[k]).2]? = some ((roSome l)[k]).1 := by
  constructor
  · unfold roIndices
    rw [List.getElem?_eq_getElem (by rw [List.length_map]; exact hk),
      List.getElem_map]
  · have hmem : (roSome l)[k] ∈ roSome l := List.getElem_mem hk
    obtain ⟨hp, _⟩ := roSome_mem_pairs l _ hmem
    exact (mem_roPairs l _ _).mp hp

/-- Two positions with the same output rank coincide. -/
theorem get_rank_order_inj (l : List (Option Int)) (i j : Nat) (r : Int)
    (hi : (get_rank_order l)[i]? = some (some r))
    (hj : (get_rank_order l)[j]? = some (some r)) : i = j := by
  obtain ⟨ki, hki, hri⟩ := get_rank_order_some_inv l i r hi
  obtain ⟨kj, hkj, hrj⟩ := get_rank_order_some_inv l j r hj
  have hk : ki = kj := by omega
  subst hk
  rw [hki] at hkj
  exact Option.some.inj hkj

/-- Every rank in `1..k` is taken by some position. -/
theorem get_rank_order_rank_exists (l : List (Option Int)) (r : Int)
    (h1 : 1 ≤ r) (h2 : r ≤ l.countP (fun x => x.isSome)) :
    ∃ i : Nat, (get_rank_order l)[i]? = some (some r) := by
  have hKlen := roIndices_length l
  have hk : (r - 1).toNat < (roIndices l).length := by omega
  have hmem : (roIndices l)[(r - 1).toNat] ∈ roIndices l := List.getElem_mem hk
  have hb : (roIndices l)[(r - 1).toNat] <
      (List.replicate l.length (none : Option Int)).length := by
    rw [List.length_replicate]
    exact roIndices_lt l _ hmem
  have := scatterRanks_getElem?_mem (roIndices l)
    (List.replicate l.length none) 1 (r - 1).toNat hk (roIndices_nodup l) hb
  refine ⟨(roIndices l)[(r - 1).toNat], ?_⟩
  rw [get_rank_order_def, this]
  congr 2
  omega

/-- Every assigned rank is in `1..l.length`. -/
theorem get_rank_order_entry_bound (l : List (Option Int)) (x : Option Int)
    (hx : x ∈ get_rank_order l) (r : Int) (hr : x = some r) :
    1 ≤ r ∧ r ≤ (l.length : Int) := by
  subst hr
  obtain ⟨i, hi⟩ := List.mem_iff_getElem?.mp hx
  obtain ⟨k, hk, hrk⟩ := get_rank_order_some_inv l i r hi
  have hklt : k < (roIndices l).length := (List.getElem?_eq_some.mp hk).1
  have hle : (roIndices l).length ≤ l.length := by
    rw [roIndices_length]
    exact List.countP_le_length _
  constructor <;> omega

/-- Smaller raw values receive smaller ranks. -/
theorem get_rank_order_mono (l : List (Option Int)) (i j : Nat) (a b : Int)
    (hi : l[i]? = some (some a)) (hj : l[j]? = some (some b)) (hab : a < b) :
    ∃ ra rb : Int, (get_rank_order l)[i]? = some (some ra) ∧
      (get_rank_order l)[j]? = some (some rb) ∧ ra < rb := by
  obtain ⟨ra, hra, _, _⟩ := get_rank_order_some l i a hi
  obtain ⟨rb, hrb, _, _⟩ := get_rank_order_some l j b hj
  refine ⟨ra, rb, hra, hrb, ?_⟩
  obtain ⟨ki, hki, hrai⟩ := get_rank_order_some_inv l i ra hra
  obtain ⟨kj, hkj, hrbj⟩ := get_rank_order_some_inv l j rb hrb
  have hkil : ki < (roIndices l).length := (List.getElem?_eq_some.mp hki).1
  have hkjl : kj < (roIndices l).length := (List.getElem?_eq_some.mp hkj).1
  have hsl : (roIndices l).length = (roSome l).length := List.length_map _ _
  have hki2 : ki < (roSome l).length := by omega
  have hkj2 : kj < (roSome l).length := by omega
  obtain ⟨hidx_i, hval_i⟩ := roIndices_pair l ki hki2
  obtain ⟨hidx_j, hval_j⟩ := roIndices_pair l kj hkj2
  rw [hki] at hidx_i
  rw [hkj] at hidx_j
  have hsnd_i : ((roSome l)[ki]).2 = i := (Option.some.inj hidx_i).symm
  have hsnd_j : ((roSome l)[kj]).2 = j := (Option.some.inj hidx_j).symm
  rw [hsnd_i, hi] at hval_i
  rw [hsnd_j, hj] at hval_j
  have hfst_i : ((roSome l)[ki]).1 = some a := (Option.some.inj hval_i).symm
  have hfst_j : ((roSome l)[kj]).1 = some b := (Option.some.inj hval_j).symm
  have hne : ki ≠ kj := by
    intro he
    subst he
    have hij : i = j := hsnd_i.symm.trans hsnd_j
    subst hij
    rw [hi] at hj
    have hab2 : a = b := Option.some.inj (Option.some.inj hj)
    omega
  rcases Nat.lt_or_ge ki kj with hlt | hge
  · omega
  · exfalso
    have hkj_lt : kj < ki := by omega
    have hle := List.pairwise_iff_getElem.mp (roSome_pairwise l)
      kj ki hkj2 hki2 hkj_lt
    unfold leVI cmpLe at hle
    apply hle
    show cmpVI ((roSome l)[kj]) ((roSome l)[ki]) = .gt
    rw [cmpVI, cmpLex, hfst_i, hfst_j]
    have : cmpOI (some b) (some a) = .gt := by
      show cmpInt b a = .gt
      exact (cmpInt_gt b a).mpr hab
    rw [this]
    rfl

/-! ### Facts about `countVec` -/

theorem countVec_length (n : Nat) (col : List (Option Int)) :
    (countVec n col).length = n := by
  unfold countVec
  rw [List.length_map, List.length_range]

theorem sum_map_add_nat (l : List Nat) (f g : Nat → Nat) :
    (l.map (fun r => f r + g r)).sum = (l.map f).sum + (l.map g).sum := by
  induction l with
  | nil => rfl
  | cons a t ih =>
    simp only [List.map_cons, List.sum_cons, ih]
    omega

theorem sum_map_ite (l : List Nat) (p : Nat → Bool) :
    (l.map (fun r => if p r then 1 else 0)).sum = l.countP p := by
  induction l with
  | nil => rfl
  | cons a t ih =>
    simp only [List.map_cons, List.sum_cons, List.countP_cons, ih]
    cases h : p a <;> simp [h] <;> omega

theorem countP_range_eq_one (n m : Nat) (hm : m < n) :
    (List.range n).countP (fun r => r == m) = 1 := by
  induction n with
  | zero => omega
  | succ n' ih =>
    rw [List.range_succ, List.countP_append]
    rcases Nat.lt_or_ge m n' with h | h
    · rw [ih h]
      have : ((n' : Nat) == m) = false := by simp; omega
      simp [List.countP_cons, this]
    · have hm' : m = n' := by omega
      subst hm'
      have h0 : (List.range m).countP (fun r => r == m) = 0 := by
        apply List.countP_eq_zero.mpr
        intro r hr
        have : r < m := List.mem_range.mp hr
        simp
        omega
      simp [h0, List.countP_cons]

theorem countVec_sum (n : Nat) (col : List (Option Int))
    (hcol : ∀ r : Int, some r ∈ col → 1 ≤ r ∧ r ≤ (n : Int)) :
    (countVec n col).sum = col.countP (fun x => x.isSome) := by
  induction col with
  | nil =>
    simp [countVec]
  | cons x t ih =>
    have ht : ∀ r : Int, some r ∈ t → 1 ≤ r ∧ r ≤ (n : Int) :=
      fun r hr => hcol r (List.mem_cons_of_mem _ hr)
    have hstep : countVec n (x :: t) = (List.range n).map
        (fun (r : Nat) => t.countP (fun v => v == some ((r : Int) + 1)) +
          (if x == some ((r : Int) + 1) then 1 else 0)) := by
      unfold countVec
      apply List.map_congr_left
      intro r _
      rw [List.countP_cons]
    rw [hstep, sum_map_add_nat]
    have hsum1 : ((List.range n).map
        (fun (r : Nat) => t.countP (fun v => v == some ((r : Int) + 1)))).sum =
        (countVec n t).sum := rfl
    rw [hsum1, ih ht, sum_map_ite]
    match x with
    | none =>
      have : (List.range n).countP
          (fun (r : Nat) => (none : Option Int) == some ((r : Int) + 1)) = 0 := by
        apply List.countP_eq_zero.mpr
        intro r _
        simp
      rw [this, List.countP_cons]
      simp
    | some v =>
      obtain ⟨hv1, hv2⟩ := hcol v (List.mem_cons_self _ _)
      have hconv : (List.range n).countP
          (fun (r : Nat) => (some v : Option Int) == some ((r : Int) + 1)) =
          (List.range n).countP (fun (r : Nat) => r == (v - 1).toNat) := by
        apply List.countP_congr
        intro r _
        rw [Bool.eq_iff_iff]
        simp only [beq_iff_eq, Option.some.injEq, iff_true, true_iff]
        omega
      rw [hconv, countP_range_eq_one _ _ (by omega), List.countP_cons]
      simp

theorem countVec_headD (n : Nat) (col : List (Option Int)) (hn : 0 < n) :
    (countVec n col).headD 0 = col.countP (fun v => v == some 1) := by
  match n, hn with
  | n' + 1, _ =>
    rw [countVec, List.range_succ_eq_map]
    simp only [List.map_cons, List.headD_cons, Nat.cast_zero]
    norm_num

/-! ### Zip bookkeeping helpers -/

theorem zip_map_snd_fun {A B C : Type} (xs : List A) (ys : List B) (g : B → C)
    (h : ys.length ≤ xs.length) :
    (List.zip xs ys).map (fun p => g p.2) = ys.map g := by
  have h1 : (List.zip xs ys).map (fun p => g p.2) =
      ((List.zip xs ys).map Prod.snd).map g := by
    rw [List.map_map]
    rfl
  rw [h1, List.map_snd_zip _ _ h]

theorem zip_zip_proj {A B C : Type} :
    ∀ (a : List A) (b : List B) (c : List C),
    b.length = a.length → c.length = a.length →
    (List.zip a (List.zip b c)).map (fun x => x.1) = a ∧
    (List.zip a (List.zip b c)).map (fun x => x.2.1) = b ∧
    (List.zip a (List.zip b c)).map (fun x => x.2.2) = c ∧
    (List.zip a (List.zip b c)).map (fun x => (x.1, x.2.2)) = List.zip a c ∧
    (List.zip a (List.zip b c)).length = a.length := by
  intro a
  induction a with
  | nil =>
    intro b c hb hc
    rw [List.length_eq_zero.mp hb, List.length_eq_zero.mp hc]
    simp
  | cons x xs ih =>
    intro b c hb hc
    match b, c with
    | [], _ => simp at hb
    | _ :: _, [] => simp at hc
    | y :: ys, z :: zs =>
      simp only [List.length_cons] at hb hc
      obtain ⟨h1, h2, h3, h4, h5⟩ := ih ys zs (by omega) (by omega)
      refine ⟨?_, ?_, ?_, ?_, ?_⟩ <;>
        simp only [List.zip_cons_cons, List.map_cons, List.length_cons,
          h1, h2, h3, h4, h5]

theorem zip_map_alignment {B C D : Type} :
    ∀ (cols : List B) (names : List D) (g : B → C),
    ∀ x ∈ List.zip (cols.map g) (List.zip cols names), x.1 = g x.2.1 := by
  intro cols
  induction cols with
  | nil =>
    intro names g x hx
    simp at hx
  | cons c cs ih =>
    intro names g x hx
    match names with
    | [] => simp at hx
    | nm :: ns =>
      rw [List.map_cons, List.zip_cons_cons, List.zip_cons_cons] at hx
      rcases List.mem_cons.mp hx with h | h
      · rw [h]
      · exact ih ns g x h

theorem forall₂_map_map {A B C : Type} (l : List A) (f : A → B) (g : A → C)
    (P : B → C → Prop) (h : ∀ x ∈ l, P (f x) (g x)) :
    List.Forall₂ P (l.map f) (l.map g) := by
  induction l with
  | nil => constructor
  | cons x xs ih =>
    simp only [List.map_cons]
    exact List.Forall₂.cons (h x (List.mem_cons_self _ _))
      (ih (fun y hy => h y (List.mem_cons_of_mem _ hy)))

/-! ### Well-formed tables -/

/-- A well-formed constructor input: at least one ballot and one
candidate, and one slot per candidate on every ballot. -/
def ValidInput (votes : List (List (Option Int)))
    (names : List String) : Prop :=
  votes ≠ [] ∧ names ≠ [] ∧ ∀ b ∈ votes, b.length = names.length

/-- The invariants `maintain` establishes on well-formed input. -/
structure Good (t : VoteTable) : Prop where
  votes_ne : t.votes ≠ []
  names_ne : t.names ≠ []
  rect : ∀ b ∈ t.votes, b.length = t.names.length
  counts_len : t.counts.length = t.names.length
  counts_each : ∀ cv ∈ t.counts, cv.length = t.names.length
  nvotes : t.N_votes = t.votes.length
  ncand : t.N_candidates = t.names.length
  sorted : t.counts.Pairwise (cmpLe (cmpList cmpNat))
  entries : ∀ b ∈ t.votes, ∀ r : Int, some r ∈ b →
    1 ≤ r ∧ r ≤ (t.names.length : Int)
  counts_def : List.Forall₂
    (fun cv col => cv = countVec t.names.length col) t.counts (pyZip t.votes)

/-- A table the program can actually construct from well-formed input. -/
def Valid (t : VoteTable) : Prop :=
  ∃ votes names, ValidInput votes names ∧ VoteTable.make votes names = some t

/-- The per-candidate count vectors before sorting. -/
def rawCounts (votes : List (List (Option Int))) (names : List String) :
    List (List Nat) :=
  (pyZip (reduce_ranks votes)).map (countVec names.length)

/-- Master theorem about the constructor on well-formed input: it
succeeds, the result satisfies the `Good` invariants, its names are a
permutation of the input names, the ballot count is preserved, and each
name keeps its own count vector. -/
theorem make_valid (votes : List (List (Option Int))) (names : List String)
    (h : ValidInput votes names) :
    ∃ t, VoteTable.make votes names = some t ∧ Good t ∧ t.names.Perm names ∧
      t.votes.length = votes.length ∧
      (t.counts.zip t.names).Perm ((rawCounts votes names).zip names) := by
  obtain ⟨hvne, hnne, hrect⟩ := h
  have hn1 : 1 ≤ names.length := List.length_pos.mpr hnne
  have hvn1 : 1 ≤ votes.length := List.length_pos.mpr hvne
  -- the normalized ballots
  have hv1len : ∀ b ∈ reduce_ranks votes, b.length = names.length := by
    intro b hb
    obtain ⟨b0, hb0, rfl⟩ := List.mem_map.mp hb
    rw [get_rank_order_length, hrect b0 hb0]
  have hv1ne : reduce_ranks votes ≠ [] := by
    unfold reduce_ranks
    simpa using hvne
  have hv1entries : ∀ b ∈ reduce_ranks votes, ∀ r : Int, some r ∈ b →
      1 ≤ r ∧ r ≤ (names.length : Int) := by
    intro b hb r hr
    obtain ⟨b0, hb0, rfl⟩ := List.mem_map.mp hb
    have := get_rank_order_entry_bound b0 (some r) hr r rfl
    rw [hrect b0 hb0] at this
    exact this
  -- the candidate columns
  have hminLen : minLen (reduce_ranks votes) = names.length :=
    minLen_eq_of_rect _ _ hv1ne hv1len
  have hcolslen : (pyZip (reduce_ranks votes)).length = names.length := by
    rw [pyZip_length, hminLen]
  have hcolrow : ∀ col ∈ pyZip (reduce_ranks votes),
      col.length = votes.length := by
    intro col hcol
    rw [pyZip_row_length _ _ hcol]
    unfold reduce_ranks
    rw [List.length_map]
  have hcolentries : ∀ col ∈ pyZip (reduce_ranks votes), ∀ r : Int,
      some r ∈ col → 1 ≤ r ∧ r ≤ (names.length : Int) := by
    intro col hcol r hr
    obtain ⟨orig, horig, hmem⟩ := pyZip_entry _ _ _ r hcol hr rfl
    exact hv1entries orig horig r hmem
  -- the KeyError guard is false
  have hguard : rankOutOfRange names.length
      (List.zip names (pyZip (reduce_ranks votes))) = false := by
    unfold rankOutOfRange
    rw [List.any_eq_false]
    intro p hp
    rw [Bool.not_eq_true, List.any_eq_false]
    intro v hv
    match v with
    | none => simp
    | some r =>
      have hpc : p.2 ∈ pyZip (reduce_ranks votes) := (List.mem_zip hp).2
      have hbd := hcolentries p.2 hpc r hv
      simp only [Bool.not_eq_true, decide_eq_false_iff_not]
      omega
  -- the sorted triples
  have hcounts : (List.zip names (pyZip (reduce_ranks votes))).map
      (fun p => countVec names.length p.2) =
      (pyZip (reduce_ranks votes)).map (countVec names.length) :=
    zip_map_snd_fun _ _ _ (by omega)
  have hrclen : (rawCounts votes names).length = names.length := by
    unfold rawCounts
    rw [List.length_map, hcolslen]
  obtain ⟨hp1, hp2, hp3, hp4, hp5⟩ := zip_zip_proj (rawCounts votes names)
    (pyZip (reduce_ranks votes)) names (by rw [hcolslen, hrclen])
    (by rw [hrclen])
  have hst0 : sortedTriples votes names = List.insertionSort leTriple
      (List.zip ((List.zip names (pyZip (reduce_ranks votes))).map
        (fun p => countVec names.length p.2))
        (List.zip (pyZip (reduce_ranks votes)) names)) := rfl
  have hst : sortedTriples votes names = List.insertionSort leTriple
      (List.zip (rawCounts votes names)
        (List.zip (pyZip (reduce_ranks votes)) names)) := by
    rw [hst0, hcounts]
    rfl
  have hperm : (sortedTriples votes names).Perm
      (List.zip (rawCounts votes names)
        (List.zip (pyZip (reduce_ranks votes)) names)) := by
    rw [hst]
    exact List.perm_insertionSort _ _
  have hstlen : (sortedTriples votes names).length = names.length := by
    rw [hperm.length_eq, hp5, hrclen]
  have hsne : sortedTriples votes names ≠ [] := by
    intro hh
    rw [hh] at hstlen
    simp at hstlen
    omega
  have hpairwise : (sortedTriples votes names).Pairwise leTriple := by
    rw [hst]
    exact List.sorted_insertionSort _ _
  -- the constructed table
  have hmake : VoteTable.make votes names =
      some { votes := pyZip ((sortedTriples votes names).map (fun x => x.2.1)),
             names := (sortedTriples votes names).map (fun x => x.2.2),
             counts := (sortedTriples votes names).map (fun x => x.1),
             N_votes := votes.length,
             N_candidates := names.length } := by
    rw [VoteTable.make, if_neg (by rw [hguard]; simp), if_neg hsne]
  -- properties of the sorted projections
  have hnames' : ((sortedTriples votes names).map (fun x => x.2.2)).Perm
      names := by
    have hmp := hperm.map (fun x : Triple => x.2.2)
    rwa [hp3] at hmp
  have hnlen' : ((sortedTriples votes names).map
      (fun x => x.2.2)).length = names.length := by
    rw [List.length_map, hstlen]
  have hcols'perm : ((sortedTriples votes names).map (fun x => x.2.1)).Perm
      (pyZip (reduce_ranks votes)) := by
    have hmp := hperm.map (fun x : Triple => x.2.1)
    rwa [hp2] at hmp
  have hcounts'perm : ((sortedTriples votes names).map (fun x => x.1)).Perm
      (rawCounts votes names) := by
    have hmp := hperm.map (fun x : Triple => x.1)
    rwa [hp1] at hmp
  have hcols'len : ((sortedTriples votes names).map
      (fun x => x.2.1)).length = names.length := by
    rw [List.length_map, hstlen]
  have hcols'ne : (sortedTriples votes names).map (fun x => x.2.1) ≠ [] := by
    intro hh
    rw [hh] at hcols'len
    simp at hcols'len
    omega
  have hcols'row : ∀ c ∈ (sortedTriples votes names).map (fun x => x.2.1),
      c.length = votes.length :=
    fun c hc => hcolrow c (hcols'perm.mem_iff.mp hc)
  have hvotes'len : (pyZip ((sortedTriples votes names).map
      (fun x => x.2.1))).length = votes.length := by
    rw [pyZip_length, minLen_eq_of_rect _ votes.length hcols'ne hcols'row]
  have hvotes'ne : pyZip ((sortedTriples votes names).map
      (fun x => x.2.1)) ≠ [] := by
    intro hh
    rw [hh] at hvotes'len
    simp at hvotes'len
    omega
  have hvotes'row : ∀ b ∈ pyZip ((sortedTriples votes names).map
      (fun x => x.2.1)), b.length = names.length := by
    intro b hb
    rw [pyZip_row_length _ _ hb, hcols'len]
  have hpyzip2 : pyZip (pyZip ((sortedTriples votes names).map
      (fun x => x.2.1))) = (sortedTriples votes names).map (fun x => x.2.1) :=
    pyZip_pyZip _ votes.length hcols'ne (by omega) hcols'row
  have halign : ∀ x ∈ sortedTriples votes names,
      x.1 = countVec names.length x.2.1 := by
    intro x hx
    exact zip_map_alignment (pyZip (reduce_ranks votes)) names
      (countVec names.length) x (hperm.mem_iff.mp hx)
  refine ⟨_, hmake, ?_, ?_, ?_, ?_⟩
  · -- the Good invariants
    refine ⟨hvotes'ne, ?_, ?_, ?_, ?_, ?_, ?_, ?_, ?_, ?_⟩
    · show (sortedTriples votes names).map (fun x => x.2.2) ≠ []
      intro hh
      rw [hh] at hnlen'
      simp at hnlen'
      omega
    · intro b hb
      exact (hvotes'row b hb).trans hnlen'.symm
    · show ((sortedTriples votes names).map (fun x => x.1)).length =
        ((sortedTriples votes names).map (fun x => x.2.2)).length
      rw [List.length_map, hstlen, hnlen']
    · intro cv hcv
      obtain ⟨col, _, rfl⟩ := List.mem_map.mp
        (hcounts'perm.mem_iff.mp hcv)
      rw [countVec_length]
      exact hnlen'.symm
    · exact hvotes'len.symm
    · exact hnlen'.symm
    · show ((sortedTriples votes names).map
        (fun x => x.1)).Pairwise (cmpLe (cmpList cmpNat))
      rw [List.pairwise_map]
      exact hpairwise.imp (fun hab => cmpLe_lex_fst _ _ hab)
    · intro b hb r hr
      obtain ⟨orig, horig, hmem⟩ := pyZip_entry _ b (some r) r hb hr rfl
      have hbd := hcolentries orig (hcols'perm.mem_iff.mp horig) r hmem
      show 1 ≤ r ∧ r ≤ ((((sortedTriples votes names).map
        (fun x => x.2.2)).length : Nat) : Int)
      rw [hnlen']
      exact hbd
    · show List.Forall₂ (fun cv col => cv = countVec
          ((sortedTriples votes names).map (fun x => x.2.2)).length col)
        ((sortedTriples votes names).map (fun x => x.1))
        (pyZip (pyZip ((sortedTriples votes names).map (fun x => x.2.1))))
      rw [hpyzip2, hnlen']
      exact forall₂_map_map _ _ _ _ halign
  · exact hnames'
  · exact hvotes'len
  · show (((sortedTriples votes names).map (fun x => x.1)).zip
        ((sortedTriples votes names).map (fun x => x.2.2))).Perm
      ((rawCounts votes names).zip names)
    rw [List.zip_map']
    have hmp := hperm.map (fun x : Triple => (x.1, x.2.2))
    rwa [hp4] at hmp

theorem valid_good (t : VoteTable) (h : Valid t) : Good t := by
  obtain ⟨votes, names, hvi, hmk⟩ := h
  obtain ⟨t', hmk', hgood, _, _, _⟩ := make_valid votes names hvi
  rw [hmk] at hmk'
  obtain rfl := Option.some.inj hmk'
  exact hgood

theorem good_valid_input (t : VoteTable) (hg : Good t) :
    ValidInput t.votes t.names :=
  ⟨hg.votes_ne, hg.names_ne, hg.rect⟩

/-- `copy` on a well-formed table succeeds and preserves the roster (as a
multiset) and the ballot count. -/
theorem copy_spec (t : VoteTable) (hg : Good t) :
    ∃ full, t.copy = some full ∧ Good full ∧ full.names.Perm t.names ∧
      full.votes.length = t.votes.length ∧ Valid full := by
  obtain ⟨full, hmk, hgood, hperm, hlen, _⟩ :=
    make_valid t.votes t.names (good_valid_input t hg)
  exact ⟨full, hmk, hgood, hperm, hlen,
    t.votes, t.names, good_valid_input t hg, hmk⟩

/-- Eliminating an in-range candidate from a table with at least two
candidates succeeds, removes exactly that roster slot, and keeps the
ballot count. -/
theorem elim_spec (t : VoteTable) (i : Nat) (hg : Good t)
    (h2 : 2 ≤ t.names.length) (hi : i < t.names.length) :
    ∃ t', t.with_candidate_eliminated i = some t' ∧ Good t' ∧
      t'.names.Perm (t.names.take i ++ t.names.drop (i + 1)) ∧
      t'.votes.length = t.votes.length ∧ Valid t' := by
  have hvn1 : 1 ≤ t.votes.length := List.length_pos.mpr hg.votes_ne
  have hcolslen : (pyZip t.votes).length = t.names.length := by
    rw [pyZip_length, minLen_eq_of_rect _ _ hg.votes_ne hg.rect]
  have hcolrow : ∀ c ∈ pyZip t.votes, c.length = t.votes.length :=
    fun c hc => pyZip_row_length _ _ hc
  have hnewcols_len : ((pyZip t.votes).take i ++
      (pyZip t.votes).drop (i + 1)).length = t.names.length - 1 := by
    rw [List.length_append, List.length_take, List.length_drop, hcolslen]
    omega
  have hnewcols_mem : ∀ c ∈ (pyZip t.votes).take i ++
      (pyZip t.votes).drop (i + 1), c ∈ pyZip t.votes := by
    intro c hc
    rcases List.mem_append.mp hc with h | h
    · exact List.take_subset _ _ h
    · exact List.drop_subset _ _ h
  have hnewcols_ne : (pyZip t.votes).take i ++
      (pyZip t.votes).drop (i + 1) ≠ [] := by
    intro hh
    rw [hh] at hnewcols_len
    simp at hnewcols_len
    omega
  have hnewcols_row : ∀ c ∈ (pyZip t.votes).take i ++
      (pyZip t.votes).drop (i + 1), c.length = t.votes.length :=
    fun c hc => hcolrow c (hnewcols_mem c hc)
  have hw_len : (pyZip ((pyZip t.votes).take i ++
      (pyZip t.votes).drop (i + 1))).length = t.votes.length := by
    rw [pyZip_length, minLen_eq_of_rect _ t.votes.length hnewcols_ne
      hnewcols_row]
  have hw_ne : pyZip ((pyZip t.votes).take i ++
      (pyZip t.votes).drop (i + 1)) ≠ [] := by
    intro hh
    rw [hh] at hw_len
    simp at hw_len
    omega
  have hnn_len : (t.names.take i ++ t.names.drop (i + 1)).length =
      t.names.length - 1 := by
    rw [List.length_append, List.length_take, List.length_drop]
    omega
  have hnn_ne : t.names.take i ++ t.names.drop (i + 1) ≠ [] := by
    intro hh
    rw [hh] at hnn_len
    simp at hnn_len
    omega
  have hw_row : ∀ b ∈ pyZip ((pyZip t.votes).take i ++
      (pyZip t.votes).drop (i + 1)),
      b.length = (t.names.take i ++ t.names.drop (i + 1)).length := by
    intro b hb
    rw [pyZip_row_length _ _ hb, hnewcols_len, hnn_len]
  have hvi : ValidInput
      (pyZip ((pyZip t.votes).take i ++ (pyZip t.votes).drop (i + 1)))
      (t.names.take i ++ t.names.drop (i + 1)) := ⟨hw_ne, hnn_ne, hw_row⟩
  obtain ⟨t', hmk, hgood, hperm, hlen, _⟩ := make_valid _ _ hvi
  refine ⟨t', hmk, hgood, hperm, by rw [hlen, hw_len], ?_⟩
  exact ⟨_, _, hvi, hmk⟩

/-- `list.index`: success gives the first occurrence, and erasing there is
`List.erase`. -/
theorem pyIndex_spec (l : List String) (w : String) (i : Nat)
    (h : pyIndex l w = some i) :
    i < l.length ∧ l.take i ++ l.drop (i + 1) = l.erase w := by
  induction l generalizing i with
  | nil => cases h
  | cons a rest ih =>
    rw [pyIndex] at h
    by_cases haw : a = w
    · rw [if_pos haw] at h
      obtain rfl := Option.some.inj h
      subst haw
      refine ⟨by simp, ?_⟩
      rw [List.take_zero, List.drop_succ_cons, List.drop_zero,
        List.nil_append, List.erase_cons_head]
    · rw [if_neg haw] at h
      match hrec : pyIndex rest w with
      | none => rw [hrec] at h; cases h
      | some k =>
        rw [hrec] at h
        simp only [Option.map_some'] at h
        obtain rfl := Option.some.inj h
        obtain ⟨hlt, herase⟩ := ih k hrec
        constructor
        · simp
          omega
        · rw [List.take_succ_cons, List.drop_succ_cons, List.cons_append,
            herase, List.erase_cons_tail]
          simp [haw]

/-! ### `pyIdx` on negative indices -/

theorem pyIdx_neg_one (l : List α) : pyIdx l (-1) = l.getLast? := by
  unfold pyIdx
  rw [if_neg (by norm_num)]
  rcases l with _ | ⟨x, xs⟩
  · rw [if_neg (by simp)]
    rfl
  · rw [if_pos (by simp)]
    rw [List.getLast?_eq_getElem?]
    rfl

theorem pyIdx_neg_two (l : List α) (h : 2 ≤ l.length) :
    pyIdx l (-2) = l[l.length - 2]? := by
  unfold pyIdx
  rw [if_neg (by norm_num), if_pos (by simpa using h)]
  rw [show ((-2 : Int)).natAbs = 2 from rfl]

theorem pyIdx_neg_two_short (l : List α) (h : l.length < 2) :
    pyIdx l (-2) = none := by
  unfold pyIdx
  rw [if_neg (by norm_num), if_neg (by simpa using h)]

/-! ### `compute_winner` and `check_tied` on well-formed tables -/

theorem mem_of_getLast? {l : List α} {a : α} (h : l.getLast? = some a) :
    a ∈ l := by
  rw [List.getLast?_eq_getElem?] at h
  obtain ⟨hlt, he⟩ := List.getElem?_eq_some.mp h
  rw [← he]
  exact List.getElem_mem hlt

theorem pairwise_getLast {R : α → α → Prop} :
    ∀ (l : List α) (x last : α), x ∈ l → l.Pairwise R →
      l.getLast? = some last → x = last ∨ R x last := by
  intro l
  induction l with
  | nil =>
    intro x last hx
    simp at hx
  | cons a rest ih =>
    intro x last hx hp hl
    rcases rest with _ | ⟨b, t⟩
    · left
      have hxa : x = a := by simpa using hx
      have hla : a = last := by
        simp only [List.getLast?_singleton] at hl
        exact Option.some.inj hl
      rw [hxa]
      exact hla
    · rw [List.getLast?_cons_cons] at hl
      rcases List.mem_cons.mp hx with rfl | hx'
      · right
        have hlast_mem : last ∈ b :: t := mem_of_getLast? hl
        exact (List.pairwise_cons.mp hp).1 last hlast_mem
      · exact ih x last hx' (List.pairwise_cons.mp hp).2 hl

theorem cmpLe_listNat_headD (a b : List Nat)
    (h : cmpLe (cmpList cmpNat) a b) : a.headD 0 ≤ b.headD 0 := by
  match a, b with
  | [], _ => simp
  | _ :: _, [] => exact absurd rfl h
  | x :: xs, y :: ys =>
    simp only [List.headD_cons]
    have hng : cmpNat x y ≠ .gt := by
      intro hgt
      apply h
      show (cmpNat x y).then _ = .gt
      rw [hgt]
      rfl
    rcases hc : cmpNat x y with _ | _ | _
    · exact le_of_lt ((cmpNat_lt x y).mp hc)
    · exact le_of_eq ((cmpNat_eq x y).mp hc)
    · exact absurd hc hng

/-- In a well-formed table, the last count vector has the largest
first-place count. -/
theorem counts_head_le_last (t : VoteTable) (hg : Good t)
    (cv last : List Nat) (hcv : cv ∈ t.counts)
    (hlast : t.counts.getLast? = some last) :
    cv.headD 0 ≤ last.headD 0 := by
  rcases pairwise_getLast t.counts cv last hcv hg.sorted hlast with rfl | hr
  · exact le_refl _
  · exact cmpLe_listNat_headD cv last hr

theorem good_counts_ne (t : VoteTable) (hg : Good t) : t.counts ≠ [] := by
  intro hh
  have h1 := hg.counts_len
  rw [hh] at h1
  have h2 := List.length_pos.mpr hg.names_ne
  simp at h1
  omega

/-- Unfolding of `compute_winner` on a well-formed table: it reads the
strongest candidate's first-place count and compares it to `N_votes/2`. -/
theorem compute_winner_spec (t : VoteTable) (hg : Good t) :
    ∃ cv nm, t.counts.getLast? = some cv ∧ t.names.getLast? = some nm ∧
      t.compute_winner =
        some (if t.N_votes / 2 < cv.headD 0 then some nm else none) := by
  obtain ⟨cv, hcv⟩ := Option.isSome_iff_exists.mp
    (List.getLast?_isSome.mpr (good_counts_ne t hg))
  obtain ⟨nm, hnm⟩ := Option.isSome_iff_exists.mp
    (List.getLast?_isSome.mpr hg.names_ne)
  have hcv_ne : cv ≠ [] := by
    intro hh
    have h1 := hg.counts_each cv (mem_of_getLast? hcv)
    rw [hh] at h1
    have h2 := List.length_pos.mpr hg.names_ne
    simp at h1
    omega
  have hcv0 : cv[0]? = some (cv.headD 0) := by
    match cv, hcv_ne with
    | c :: cs, _ => rw [List.getElem?_cons_zero, List.headD_cons]
  refine ⟨cv, nm, hcv, hnm, ?_⟩
  unfold VoteTable.compute_winner
  rw [pyIdx_neg_one, hcv, Option.some_bind, hcv0, Option.some_bind]
  by_cases hwin : t.N_votes / 2 < cv.headD 0
  · rw [if_pos hwin, if_pos hwin, pyIdx_neg_one, hnm, Option.some_bind]
  · rw [if_neg hwin, if_neg hwin]

/-- Unfolding of `check_tied` on a well-formed table with at least two
candidates. -/
theorem check_tied_spec (t : VoteTable) (hg : Good t)
    (h2 : 2 ≤ t.counts.length) :
    ∃ a b, t.counts.getLast? = some a ∧
      t.counts[t.counts.length - 2]? = some b ∧
      t.check_tied = some (decide (a = b) && decide (0 < a.sum)) := by
  obtain ⟨a, ha⟩ := Option.isSome_iff_exists.mp
    (List.getLast?_isSome.mpr (good_counts_ne t hg))
  have hb : ∃ b, t.counts[t.counts.length - 2]? = some b := by
    have : t.counts.length - 2 < t.counts.length := by omega
    exact ⟨_, List.getElem?_eq_getElem this⟩
  obtain ⟨b, hb⟩ := hb
  refine ⟨a, b, ha, hb, ?_⟩
  unfold VoteTable.check_tied
  rw [pyIdx_neg_one, ha, Option.some_bind, pyIdx_neg_two _ h2, hb,
    Option.some_bind]

/-- `check_tied` on a single-candidate table models the `IndexError` that
`counts[-2]` raises. -/
theorem check_tied_single (t : VoteTable) (hg : Good t)
    (h1 : t.counts.length < 2) : t.check_tied = none := by
  obtain ⟨a, ha⟩ := Option.isSome_iff_exists.mp
    (List.getLast?_isSome.mpr (good_counts_ne t hg))
  unfold VoteTable.check_tied
  rw [pyIdx_neg_one, ha, Option.some_bind, pyIdx_neg_two_short _ h1]
  rfl

/-! ### Degenerate constructor input and elimination validity -/

/-- Constructing from an empty ballot list crashes (`ValueError` unpacking
an empty `zip`). -/
theorem make_nil (names : List String) :
    VoteTable.make [] names = none := by
  have h1 : sortedTriples [] names = [] := by
    unfold sortedTriples reduce_ranks
    dsimp only []
    rw [show pyZip (List.map get_rank_order []) = [] from rfl,
      List.zip_nil_right]
    rfl
  unfold VoteTable.make
  rw [h1]
  rw [show reduce_ranks [] = [] from rfl,
    show pyZip [] = [] from rfl, List.zip_nil_right,
    show rankOutOfRange names.length [] = false from rfl]
  simp

/-- Any successful elimination from a well-formed table yields a valid
table (out-of-range indices silently eliminate nobody). -/
theorem elim_valid (t : VoteTable) (i : Nat) (hg : Good t) (t' : VoteTable)
    (h : t.with_candidate_eliminated i = some t') : Valid t' := by
  have hcolslen : (pyZip t.votes).length = t.names.length := by
    rw [pyZip_length, minLen_eq_of_rect _ _ hg.votes_ne hg.rect]
  by_cases hi : i < t.names.length
  · by_cases h2 : 2 ≤ t.names.length
    · obtain ⟨t'', hmk, _, _, _, hv⟩ := elim_spec t i hg h2 hi
      rw [h] at hmk
      obtain rfl := Option.some.inj hmk
      exact hv
    · exfalso
      have h1 : t.names.length = 1 := by
        have := List.length_pos.mpr hg.names_ne
        omega
      have hi0 : i = 0 := by omega
      subst hi0
      have hcols_nil : (pyZip t.votes).take 0 ++ (pyZip t.votes).drop 1 = [] := by
        rw [List.take_zero, List.nil_append,
          List.drop_eq_nil_of_le (by omega)]
      unfold VoteTable.with_candidate_eliminated VoteTable.votes_by_candidate
        at h
      dsimp only [] at h
      rw [hcols_nil, show pyZip [] = [] from rfl, make_nil] at h
      cases h
  · -- index out of range: the slices are no-ops and the table is rebuilt
    have hcols_eq : (pyZip t.votes).take i ++ (pyZip t.votes).drop (i + 1) =
        pyZip t.votes := by
      rw [List.take_of_length_le (by omega),
        List.drop_eq_nil_of_le (by omega), List.append_nil]
    have hnames_eq : t.names.take i ++ t.names.drop (i + 1) = t.names := by
      rw [List.take_of_length_le (by omega),
        List.drop_eq_nil_of_le (by omega), List.append_nil]
    have hback : pyZip (pyZip t.votes) = t.votes :=
      pyZip_pyZip t.votes t.names.length hg.votes_ne
        (List.length_pos.mpr hg.names_ne) hg.rect
    unfold VoteTable.with_candidate_eliminated VoteTable.votes_by_candidate
      at h
    dsimp only [] at h
    rw [hcols_eq, hnames_eq, hback] at h
    exact ⟨t.votes, t.names, good_valid_input t hg, h⟩

/-- The round transition of `instant_runoff`: on success the next table's
roster is the starting roster minus (one occurrence of) the resolved
candidate, independent of any intra-round eliminations. -/
theorem next_round_spec (sel : VoteTable → Nat) (fuel : Nat) (t : VoteTable)
    (hv : Valid t) (w : String) (b : Bool) (t' : VoteTable)
    (h : next_round_table sel fuel t = some (w, b, t')) :
    t'.names.Perm (t.names.erase w) ∧ Valid t' := by
  have hg := valid_good t hv
  obtain ⟨full, hcopy, hgf, hnperm, hnlen, hvf⟩ := copy_spec t hg
  unfold next_round_table at h
  rw [hcopy, Option.some_bind] at h
  match hrl : round_loop sel fuel t with
  | none => rw [hrl, Option.none_bind] at h; cases h
  | some wi =>
    rw [hrl, Option.some_bind] at h
    match hpi : pyIndex full.names wi.1 with
    | none => rw [hpi, Option.none_bind] at h; cases h
    | some i =>
      rw [hpi, Option.some_bind] at h
      match helim : full.with_candidate_eliminated i with
      | none => rw [helim, Option.none_bind] at h; cases h
      | some t2 =>
        rw [helim, Option.some_bind] at h
        have h' := Option.some.inj h
        rw [Prod.mk.injEq, Prod.mk.injEq] at h'
        obtain ⟨rfl, rfl, rfl⟩ := h'
        obtain ⟨hilt, herase⟩ := pyIndex_spec full.names wi.1 i hpi
        have h2 : 2 ≤ full.names.length := by
          by_contra hlt
          have h1 : full.names.length = 1 := by
            have := List.length_pos.mpr hgf.names_ne
            omega
          have hi0 : i = 0 := by omega
          subst hi0
          have hcolslen : (pyZip full.votes).length = full.names.length := by
            rw [pyZip_length,
              minLen_eq_of_rect _ _ hgf.votes_ne hgf.rect]
          have hcols_nil : (pyZip full.votes).take 0 ++
              (pyZip full.votes).drop 1 = [] := by
            rw [List.take_zero, List.nil_append,
              List.drop_eq_nil_of_le (by omega)]
          unfold VoteTable.with_candidate_eliminated
            VoteTable.votes_by_candidate at helim
          dsimp only [] at helim
          rw [hcols_nil, show pyZip [] = [] from rfl, make_nil] at helim
          cases helim
        obtain ⟨t3, hmk, hg3, hperm3, hlen3, hv3⟩ :=
          elim_spec full i hgf h2 hilt
        rw [helim] at hmk
        obtain rfl := Option.some.inj hmk
        rw [herase] at hperm3
        exact ⟨hperm3.trans (hnperm.erase wi.1), hv3⟩

/-! ### Load-time failures -/

theorem mapM_eq_none_of_mem {α β : Type} {f : α → Option β} :
    ∀ (l : List α) (x : α), x ∈ l → f x = none → l.mapM f = none := by
  intro l
  induction l with
  | nil =>
    intro x hx
    simp at hx
  | cons a rest ih =>
    intro x hx hf
    rw [List.mapM_cons]
    rcases List.mem_cons.mp hx with rfl | hx'
    · rw [hf]
      rfl
    · rw [ih x hx' hf]
      rcases hfa : f a with _ | v <;> rfl

/-- A non-numeric token anywhere makes `read_votes` raise `ValueError`. -/
theorem read_votes_fails (names : List String) (lines : List (List String))
    (line : List String) (hline : line ∈ lines) (s : String) (hs : s ∈ line)
    (hnum : pyInt s = none) : read_votes names lines = none := by
  have h1 : int_or_none s = none := by
    unfold int_or_none
    rw [hnum]
  have h2 : line.mapM int_or_none = none :=
    mapM_eq_none_of_mem line s hs h1
  have h3 : lines.mapM (fun (l : List String) => l.mapM int_or_none) = none :=
    mapM_eq_none_of_mem lines line hline h2
  unfold read_votes
  rw [h3]
  rfl

/-! ### The claims -/

/-- C1: for every valid VoteTable, `compute_winner` returns a candidate
name iff that candidate's rank-1 count strictly exceeds half the total
ballot count (abstaining ballots included: the denominator is the full
ballot list) and that candidate is the strongest (last in sorted order);
otherwise it returns `none`, and in that case no candidate at all — in
particular none other than the strongest — reaches the majority
threshold. The third conjunct identifies each count vector's first entry
as the rank-1 ballot count of the corresponding candidate column. -/
theorem C1_compute_winner (t : VoteTable) (hv : Valid t) :
    (∀ nm : String, t.compute_winner = some (some nm) ↔
      (t.names.getLast? = some nm ∧ ∃ cv, t.counts.getLast? = some cv ∧
        2 * cv.headD 0 > t.votes.length)) ∧
    (t.compute_winner = some none ↔
      ∀ cv ∈ t.counts, 2 * cv.headD 0 ≤ t.votes.length) ∧
    List.Forall₂ (fun cv col => cv.headD 0 =
      col.countP (fun v => v == some 1)) t.counts (pyZip t.votes) := by
  have hg := valid_good t hv
  obtain ⟨cv, nm, hcv, hnm, hcw⟩ := compute_winner_spec t hg
  have hNv : t.N_votes = t.votes.length := hg.nvotes
  refine ⟨?_, ?_, ?_⟩
  · intro nm'
    constructor
    · intro hres
      rw [hcw] at hres
      by_cases hcond : t.N_votes / 2 < cv.headD 0
      · rw [if_pos hcond] at hres
        obtain rfl : nm = nm' :=
          Option.some.inj (Option.some.inj hres)
        refine ⟨hnm, cv, hcv, ?_⟩
        rw [hNv] at hcond
        omega
      · rw [if_neg hcond] at hres
        simp at hres
    · rintro ⟨hnm', cv', hcv', hgt⟩
      rw [hnm] at hnm'
      obtain rfl := Option.some.inj hnm'
      rw [hcv] at hcv'
      obtain rfl := Option.some.inj hcv'
      rw [hcw, if_pos (by rw [hNv]; omega)]
  · constructor
    · intro hres cv' hcv'mem
      rw [hcw] at hres
      by_cases hcond : t.N_votes / 2 < cv.headD 0
      · rw [if_pos hcond] at hres
        simp at hres
      · have hle := counts_head_le_last t hg cv' cv hcv'mem hcv
        rw [hNv] at hcond
        omega
    · intro hall
      have hlast := hall cv (mem_of_getLast? hcv)
      rw [hcw, if_neg (by rw [hNv]; omega)]
  · obtain ⟨hlen, hpt⟩ := List.forall₂_iff_zip.mp hg.counts_def
    rw [List.forall₂_iff_zip]
    refine ⟨hlen, ?_⟩
    intro a b hab
    rw [hpt hab]
    exact countVec_headD _ _ (List.length_pos.mpr hg.names_ne)

/-- Witness for C1 at a concrete 3-ballot election: candidate `A` has two
first-place votes out of three ballots, so `compute_winner` names `A`. -/
theorem C1_compute_winner_witness :
    (VoteTable.mk [[some 2, some 1], [some 2, some 1], [some 1, some 2]]
      ["B", "A"] [[1, 2], [2, 1]] 3 2).compute_winner = some (some "A") := by
  have hv : Valid (VoteTable.mk
      [[some 2, some 1], [some 2, some 1], [some 1, some 2]]
      ["B", "A"] [[1, 2], [2, 1]] 3 2) :=
    ⟨[[some 1, some 2], [some 1, some 2], [some 2, some 1]], ["A", "B"],
      ⟨by decide, by decide, by decide⟩, by decide⟩
  exact ((C1_compute_winner _ hv).1 "A").mpr
    ⟨by decide, [2, 1], by decide, by decide⟩

/-- C2: one resolved rank position of the driver (automated mode): the
next round starts from the pre-round snapshot with exactly the identified
candidate (winner or ineligible) removed; every candidate eliminated
during the round's tie-breaking is restored, i.e. still present in the
next round's starting roster. The next table is again a valid table. -/
theorem C2_round_isolation (sel : VoteTable → Nat) (fuel : Nat)
    (t : VoteTable) (hv : Valid t) (w : String) (b : Bool) (t' : VoteTable)
    (h : next_round_table sel fuel t = some (w, b, t')) :
    t'.names.Perm (t.names.erase w) ∧
    (∀ c ∈ t.names, c ≠ w → c ∈ t'.names) ∧ Valid t' := by
  obtain ⟨hperm, hval⟩ := next_round_spec sel fuel t hv w b t' h
  refine ⟨hperm, ?_, hval⟩
  intro c hc hcw
  rw [hperm.mem_iff]
  exact (List.mem_erase_of_ne hcw).mpr hc

/-- Witness for C2 on a 5-ballot, 3-candidate election: round 1 resolves
`A` (after intra-round eliminations), and the next roster is exactly
`{B, C}` — the eliminated-then-restored candidates minus the winner. -/
theorem C2_round_isolation_witness :
    (VoteTable.mk [[some 2, some 1], [some 1, some 2], [some 2, some 1],
        [some 2, some 1], [some 1, some 2]]
      ["C", "B"] [[2, 3], [3, 2]] 5 2).names.Perm
      ((["C", "B", "A"] : List String).erase "A") ∧
    "B" ∈ (VoteTable.mk [[some 2, some 1], [some 1, some 2], [some 2, some 1],
        [some 2, some 1], [some 1, some 2]]
      ["C", "B"] [[2, 3], [3, 2]] 5 2).names := by
  have hv : Valid (VoteTable.mk
      [[some 3, some 2, some 1], [some 2, some 3, some 1],
        [some 3, some 1, some 2], [some 2, some 1, some 3],
        [some 1, some 3, some 2]]
      ["C", "B", "A"] [[1, 2, 2], [2, 1, 2], [2, 2, 1]] 5 3) :=
    ⟨[[some 1, some 2, some 3], [some 1, some 3, some 2],
      [some 2, some 1, some 3], [some 3, some 1, some 2],
      [some 2, some 3, some 1]], ["A", "B", "C"],
      ⟨by decide, by decide, by decide⟩, by decide⟩
  have h := C2_round_isolation (fun _ => 0) 10 _ hv "A" false
    (VoteTable.mk [[some 2, some 1], [some 1, some 2], [some 2, some 1],
        [some 2, some 1], [some 1, some 2]]
      ["C", "B"] [[2, 3], [3, 2]] 5 2) (by decide)
  exact ⟨h.1, h.2.1 "B" (by decide) (by decide)⟩

/-- C3: for every valid VoteTable with at least two candidates,
`check_tied` answers (no `IndexError`), and answers `true` exactly when
the two strongest candidates' count vectors are equal and that vector
does not sum to zero (an all-zero tie yields `false`). -/
theorem C3_check_tied (t : VoteTable) (hv : Valid t)
    (h2 : 2 ≤ t.names.length) :
    (∃ x, t.check_tied = some x) ∧
    (t.check_tied = some true ↔ ∃ a b, t.counts.getLast? = some a ∧
      t.counts[t.counts.length - 2]? = some b ∧ a = b ∧ 0 < a.sum) := by
  have hg := valid_good t hv
  have h2c : 2 ≤ t.counts.length := by rw [hg.counts_len]; exact h2
  obtain ⟨a, b, ha, hb, hct⟩ := check_tied_spec t hg h2c
  refine ⟨⟨_, hct⟩, ?_, ?_⟩
  · intro hres
    rw [hct] at hres
    have hx := Option.some.inj hres
    rw [Bool.and_eq_true, decide_eq_true_eq, decide_eq_true_eq] at hx
    exact ⟨a, b, ha, hb, hx.1, hx.2⟩
  · rintro ⟨a', b', ha', hb', heq, hsum⟩
    rw [ha] at ha'
    obtain rfl := Option.some.inj ha'
    rw [hb] at hb'
    obtain rfl := Option.some.inj hb'
    subst heq
    rw [hct]
    simp [hsum]

/-- Witness for C3: a genuine two-way tie with nonzero count vectors is
reported as blocking. -/
theorem C3_check_tied_witness :
    (VoteTable.mk [[some 1, some 2], [some 2, some 1]] ["A", "B"]
      [[1, 1], [1, 1]] 2 2).check_tied = some true := by
  have hv : Valid (VoteTable.mk [[some 1, some 2], [some 2, some 1]]
      ["A", "B"] [[1, 1], [1, 1]] 2 2) :=
    ⟨[[some 1, some 2], [some 2, some 1]], ["A", "B"],
      ⟨by decide, by decide, by decide⟩, by decide⟩
  exact ((C3_check_tied _ hv (by decide)).2).mpr
    ⟨[1, 1], [1, 1], by decide, by decide, rfl, by decide⟩

/-- C4: ballot normalization. The output has the input's length;
abstaining positions map to `none` in place (and conversely); every
non-abstaining position receives a rank; the ranks taken are exactly
`{1, …, k}` for `k` the number of non-abstaining entries, each exactly
once; the relative order of distinct raw values is preserved; and the
spec's two examples compute as stated. -/
theorem C4_get_rank_order (l : List (Option Int)) :
    (get_rank_order l).length = l.length ∧
    (∀ i : Nat, i < l.length →
      (l[i]? = some none ↔ (get_rank_order l)[i]? = some none)) ∧
    (∀ (i : Nat) (a : Int), l[i]? = some (some a) →
      ∃ r : Int, (get_rank_order l)[i]? = some (some r)) ∧
    (∀ r : Int, (∃ i : Nat, (get_rank_order l)[i]? = some (some r)) ↔
      (1 ≤ r ∧ r ≤ l.countP (fun x => x.isSome))) ∧
    (∀ (i j : Nat) (r : Int), (get_rank_order l)[i]? = some (some r) →
      (get_rank_order l)[j]? = some (some r) → i = j) ∧
    (∀ (i j : Nat) (a b : Int), l[i]? = some (some a) →
      l[j]? = some (some b) → a < b →
      ∃ ra rb : Int, (get_rank_order l)[i]? = some (some ra) ∧
        (get_rank_order l)[j]? = some (some rb) ∧ ra < rb) ∧
    get_rank_order [some 5, some 1, some 4] = [some 3, some 1, some 2] ∧
    get_rank_order [none, some 2, some 1] = [none, some 2, some 1] := by
  refine ⟨get_rank_order_length l, ?_, ?_, ?_, ?_, ?_, by decide, by decide⟩
  · intro i hi
    constructor
    · exact get_rank_order_none l i
    · intro hout
      rcases hin : l[i]? with _ | (_ | a)
      · rw [List.getElem?_eq_none_iff] at hin
        omega
      · rfl
      · obtain ⟨r, hr, _, _⟩ := get_rank_order_some l i a hin
        rw [hout] at hr
        cases Option.some.inj hr
  · intro i a hin
    obtain ⟨r, hr, _, _⟩ := get_rank_order_some l i a hin
    exact ⟨r, hr⟩
  · intro r
    constructor
    · rintro ⟨i, hi⟩
      obtain ⟨k, hk, hrk⟩ := get_rank_order_some_inv l i r hi
      have hklt : k < (roIndices l).length := (List.getElem?_eq_some.mp hk).1
      rw [roIndices_length] at hklt
      omega
    · rintro ⟨h1, h2⟩
      exact get_rank_order_rank_exists l r h1 h2
  · exact get_rank_order_inj l
  · exact get_rank_order_mono l

/-- Witness for C4: in `[5, 1, 4]` the raw values `1 < 4` at positions 1
and 2 receive ranks in the same order. -/
theorem C4_get_rank_order_witness :
    ∃ ra rb : Int,
      (get_rank_order [some 5, some 1, some 4])[1]? = some (some ra) ∧
      (get_rank_order [some 5, some 1, some 4])[2]? = some (some rb) ∧
      ra < rb :=
  (C4_get_rank_order [some 5, some 1, some 4]).2.2.2.2.2.1 1 2 1 4
    (by decide) (by decide) (by decide)

/-- C5: every table the program constructs (at load, by `copy`, or after
any elimination — all go through the constructor, so all are `Valid`)
keeps its candidates sorted by count vector under Python's lexicographic
list comparison (position-1 counts first), weakest first and strongest
last; the stored ballots are consistent: candidate `i`'s stored column is
tallied by exactly the stored count vector `i`; and the names are carried
along with their count vectors (the pairing is a permutation of the
pre-sort pairing). -/
theorem C5_candidate_order (t : VoteTable) (hv : Valid t) :
    t.counts.Pairwise (cmpLe (cmpList cmpNat)) ∧
    List.Forall₂ (fun cv col => cv = countVec t.names.length col)
      t.counts (pyZip t.votes) ∧
    ∃ votes names, VoteTable.make votes names = some t ∧
      (t.counts.zip t.names).Perm ((rawCounts votes names).zip names) := by
  have hg := valid_good t hv
  obtain ⟨votes, names, hvi, hmk⟩ := hv
  obtain ⟨t'', hmk'', _, _, _, hpair⟩ := make_valid votes names hvi
  rw [hmk] at hmk''
  obtain rfl := Option.some.inj hmk''
  exact ⟨hg.sorted, hg.counts_def, votes, names, hmk, hpair⟩

/-- Witness for C5 on a concrete table: its stored counts are
lexicographically non-decreasing. -/
theorem C5_candidate_order_witness :
    (VoteTable.mk [[some 2, some 1], [some 2, some 1], [some 1, some 2]]
      ["B", "A"] [[1, 2], [2, 1]] 3 2).counts.Pairwise
      (cmpLe (cmpList cmpNat)) := by
  have hv : Valid (VoteTable.mk
      [[some 2, some 1], [some 2, some 1], [some 1, some 2]]
      ["B", "A"] [[1, 2], [2, 1]] 3 2) :=
    ⟨[[some 1, some 2], [some 1, some 2], [some 2, some 1]], ["A", "B"],
      ⟨by decide, by decide, by decide⟩, by decide⟩
  exact (C5_candidate_order _ hv).1

/-- C6 counterexample: a valid one-candidate table with the in-range
index 0 — eliminating the sole candidate crashes the constructor (the
empty `zip(*sorted(...))` unpacking), so no table with preserved ballot
count is returned, contrary to the claim read over every valid table and
in-range index. -/
theorem C6_counterexample :
    ∃ t, VoteTable.make [[some 1]] ["A"] = some t ∧ 0 < t.names.length ∧
      t.with_candidate_eliminated 0 = none :=
  ⟨⟨[[some 1]], ["A"], [[1]], 1, 1⟩, by decide, by decide, by decide⟩

/-- C6 (amended to tables with at least two candidates): eliminating an
in-range candidate yields a table with exactly one candidate fewer, the
same number of ballots, and re-normalized ranks all within the remaining
candidate count. -/
theorem C6_with_candidate_eliminated (t : VoteTable) (i : Nat)
    (hv : Valid t) (h2 : 2 ≤ t.names.length) (hi : i < t.names.length) :
    ∃ t', t.with_candidate_eliminated i = some t' ∧
      t'.names.length = t.names.length - 1 ∧
      t'.votes.length = t.votes.length ∧
      (∀ bl ∈ t'.votes, bl.length = t'.names.length) ∧
      (∀ bl ∈ t'.votes, ∀ r : Int, some r ∈ bl →
        1 ≤ r ∧ r ≤ (t'.names.length : Int)) := by
  have hg := valid_good t hv
  obtain ⟨t', hmk, hg', hperm, hlen, _⟩ := elim_spec t i hg h2 hi
  refine ⟨t', hmk, ?_, hlen, hg'.rect, hg'.entries⟩
  rw [hperm.length_eq, List.length_append, List.length_take,
    List.length_drop]
  omega

/-- Witness for C6: eliminating candidate `A` (index 1) from the sorted
3-ballot table leaves one candidate and still three ballots. -/
theorem C6_with_candidate_eliminated_witness :
    ∃ t', VoteTable.with_candidate_eliminated
        (VoteTable.mk [[some 2, some 1], [some 2, some 1],
          [some 1, some 2]] ["B", "A"] [[1, 2], [2, 1]] 3 2) 1 = some t' ∧
      t'.names.length = 1 ∧ t'.votes.length = 3 := by
  have hv : Valid (VoteTable.mk
      [[some 2, some 1], [some 2, some 1], [some 1, some 2]]
      ["B", "A"] [[1, 2], [2, 1]] 3 2) :=
    ⟨[[some 1, some 2], [some 1, some 2], [some 2, some 1]], ["A", "B"],
      ⟨by decide, by decide, by decide⟩, by decide⟩
  obtain ⟨t', h1, h2, h3, _, _⟩ :=
    C6_with_candidate_eliminated _ 1 hv (by decide) (by decide)
  exact ⟨t', h1, h2, h3⟩

/-- C7: in every valid table (as constructed, and every successful
elimination yields a valid table again, so this persists through
eliminations), each candidate's count vector sums to the number of
ballots on which that candidate is not abstained (its stored column's
non-`none` entries). -/
theorem C7_count_vector_sum (t : VoteTable) (hv : Valid t) :
    List.Forall₂ (fun cv col => cv.sum = col.countP (fun x => x.isSome))
      t.counts (pyZip t.votes) ∧
    (∀ (i : Nat) (t' : VoteTable),
      t.with_candidate_eliminated i = some t' → Valid t') := by
  have hg := valid_good t hv
  constructor
  · obtain ⟨hlen, hpt⟩ := List.forall₂_iff_zip.mp hg.counts_def
    rw [List.forall₂_iff_zip]
    refine ⟨hlen, ?_⟩
    intro a b hab
    have hbmem : b ∈ pyZip t.votes := (List.mem_zip hab).2
    rw [hpt hab]
    apply countVec_sum
    intro r hr
    obtain ⟨orig, horig, hmem⟩ := pyZip_entry t.votes b (some r) r hbmem hr rfl
    exact hg.entries orig horig r hmem
  · intro i t' h
    exact elim_valid t i hg t' h

/-- Witness for C7 at a concrete table: the count-vector sums equal the
non-abstention counts of the stored columns. -/
theorem C7_count_vector_sum_witness :
    List.Forall₂ (fun cv col => cv.sum = col.countP (fun x => x.isSome))
      (VoteTable.mk [[some 2, some 1], [some 2, some 1], [some 1, some 2]]
        ["B", "A"] [[1, 2], [2, 1]] 3 2).counts
      (pyZip (VoteTable.mk [[some 2, some 1], [some 2, some 1],
        [some 1, some 2]] ["B", "A"] [[1, 2], [2, 1]] 3 2).votes) := by
  have hv : Valid (VoteTable.mk
      [[some 2, some 1], [some 2, some 1], [some 1, some 2]]
      ["B", "A"] [[1, 2], [2, 1]] 3 2) :=
    ⟨[[some 1, some 2], [some 1, some 2], [some 2, some 1]], ["A", "B"],
      ⟨by decide, by decide, by decide⟩, by decide⟩
  exact (C7_count_vector_sum _ hv).1

/-- C8 counterexample: a ballot with a duplicated non-zero preference
(`1 1` for two candidates) loads without any error — `read_votes`
performs no duplicate validation, contrary to the claim that such input
fails with a `ValidationError` at load time. -/
theorem C8_counterexample :
    ∃ t, read_votes ["A", "B"] [["1", "1"]] = some (some t) ∧
      t.N_candidates = 2 :=
  ⟨⟨[[some 2, some 1]], ["B", "A"], [[0, 1], [1, 0]], 1, 2⟩, by decide, rfl⟩

/-- C8 (amended): there is no `ValidationError` — malformed input is not
validated at load time. A non-numeric token does abort loading (the
`ValueError` from `int`); a duplicated non-zero preference loads
successfully (the stable sort dense-ranks it by column position); a row
shorter than the header loads, silently truncating the table to the
shorter width; and a non-numeric token is not the only load-time
failure: a numeric row wider than the header crashes the constructor
during tallying (`counter[vote]` raises `KeyError`), modelled by the
inner `none`. -/
theorem C8_load_validation :
    (∀ (names : List String) (lines : List (List String))
      (line : List String) (s : String), line ∈ lines → s ∈ line →
      pyInt s = none → read_votes names lines = none) ∧
    (∃ t, read_votes ["A", "B"] [["1", "1"]] = some (some t)) ∧
    (∃ t, read_votes ["A", "B"] [["1"], ["2", "1"]] = some (some t) ∧
      t.names = ["A"]) ∧
    read_votes ["A"] [["2", "1"]] = some none :=
  ⟨fun names lines line s h1 h2 h3 =>
      read_votes_fails names lines line h1 s h2 h3,
   ⟨⟨[[some 2, some 1]], ["B", "A"], [[0, 1], [1, 0]], 1, 2⟩, by decide⟩,
   ⟨⟨[[some 1], [some 2]], ["A"], [[1, 1]], 2, 2⟩, by decide, rfl⟩,
   by decide⟩

/-- Witness for C8: a non-numeric token makes the load raise. -/
theorem C8_load_validation_witness :
    read_votes ["A", "B"] [["x", "2"]] = none :=
  C8_load_validation.1 ["A", "B"] [["x", "2"]] ["x", "2"] "x"
    (by decide) (by decide) (by decide)

/-- C9 (the claim describes intended behavior; the code has no
`InputError` and never re-requests): on a tied two-candidate table, a
selector answering the out-of-range index 5 is accepted by `auto_loser`,
the elimination silently removes nobody (Python slices clamp), and the
round loop therefore spins until fuel runs out instead of failing or
re-asking. -/
theorem C9_invalid_selector_index :
    ∃ t t' : VoteTable,
      VoteTable.make [[some 1, some 2], [some 2, some 1]] ["A", "B"] =
        some t ∧
      t.check_tied = some true ∧
      auto_loser (fun _ => 5) t = some 5 ∧
      t.with_candidate_eliminated 5 = some t' ∧
      t'.names = t.names ∧
      round_loop (fun _ => 5) 5 t = none :=
  ⟨⟨[[some 1, some 2], [some 2, some 1]], ["A", "B"], [[1, 1], [1, 1]], 2, 2⟩,
   ⟨[[some 1, some 2], [some 2, some 1]], ["A", "B"], [[1, 1], [1, 1]], 2, 2⟩,
   by decide, by decide, by decide, by decide, rfl, by decide⟩

/-- C10 counterexample: a valid single-candidate table whose count vector
has nonzero sum, on which `check_tied` does not return `true` — it fails
(`counts[-2]` raises `IndexError`; Python's negative indexing does not
wrap around a length-1 list). -/
theorem C10_counterexample :
    ∃ t, VoteTable.make [[some 1]] ["A"] = some t ∧
      0 < (t.counts.headD []).sum ∧ t.check_tied ≠ some true :=
  ⟨⟨[[some 1]], ["A"], [[1]], 1, 1⟩, by decide, by decide, by decide⟩

/-- C10 (amended): on every valid table with exactly one candidate,
`check_tied` raises (`none` models the `IndexError` of `counts[-2]`);
there is no wrap-around to the sole candidate. -/
theorem C10_check_tied_single (t : VoteTable) (hv : Valid t)
    (h1 : t.names.length = 1) : t.check_tied = none := by
  have hg := valid_good t hv
  exact check_tied_single t hg (by rw [hg.counts_len, h1]; omega)

/-- Witness for C10 on the concrete one-candidate table. -/
theorem C10_check_tied_single_witness :
    (VoteTable.mk [[some 1]] ["A"] [[1]] 1 1).check_tied = none := by
  have hv : Valid (VoteTable.mk [[some 1]] ["A"] [[1]] 1 1) :=
    ⟨[[some 1]], ["A"], ⟨by decide, by decide, by decide⟩, by decide⟩
  exact C10_check_tied_single _ hv (by decide)
